import Mathlib

/-!
Verification development for the typed HTTP contract layer: the Client Type
Generator (`src/client.ts`), the error classes (`src/errors.ts`), the routing
traversal they consume, and the schema walker / reference resolver driving
document generation (observable through the generated OpenAPI document).

Pure functions of the source are embedded as Lean functions; the mutable
per-run registries become explicit state records threaded through the
computation.  Fallible operations return `Option` or `Except`.
-/

namespace EZA

/-! ## HTTP methods (`src/method.ts`, as consumed by `src/client.ts`)

`client.ts` enumerates `["get", "post", "put", "delete", "patch"]` as the
`Method` values and additionally compares endpoint methods against
`"options"`, so the method universe consumed by the generator is these six
literals. -/

inductive Method where
  | get
  | post
  | put
  | delete
  | patch
  | options
deriving DecidableEq, Repr

def Method.toStr : Method → String
  | .get => "get"
  | .post => "post"
  | .put => "put"
  | .delete => "delete"
  | .patch => "patch"
  | .options => "options"

/-- The fixed list rendered into the generated `Method` type alias at
`client.ts` lines 75-85: `["get", "post", "put", "delete", "patch"]`. -/
def clientMethodList : List Method :=
  [Method.get, Method.post, Method.put, Method.delete, Method.patch]

/-! ## Validation schemas and generated type expressions

`ZSchema` embeds the validation-schema values an endpoint declares (the
SchemaNode tree of the spec, in the variants exercised by the generator);
`TsType` embeds the type-expression tree that `zodToTs` produces from it. -/

inductive ZSchema where
  | str (pattern : Option String)
  | num
  | lit (value : String)
  | obj (fields : List (String × ZSchema))
  | arr (elem : ZSchema)
  | orS (left right : ZSchema)
deriving Repr

inductive TsType where
  | tstring
  | tnumber
  | tliteral (value : String)
  | tobject (fields : List (String × TsType))
  | tarray (elem : TsType)
  | tunion (left right : TsType)
deriving Repr

mutual
/-- Schema-to-type rendering, the `zodToTs` call of `client.ts` lines 34-43:
a union schema (zod `.or`) renders to a union type node, an object schema to
an object type, and so on, structurally. -/
def zodToTs : ZSchema → TsType
  | .str _ => .tstring
  | .num => .tnumber
  | .lit v => .tliteral v
  | .obj fields => .tobject (zodToTsFields fields)
  | .arr e => .tarray (zodToTs e)
  | .orS a b => .tunion (zodToTs a) (zodToTs b)
/-- Field-wise schema-to-type rendering of an object schema. -/
def zodToTsFields : List (String × ZSchema) → List (String × TsType)
  | [] => []
  | (n, s) :: rest => (n, zodToTs s) :: zodToTsFields rest
end

/-- The two members of a rendered union type. -/
def TsType.unionMembers : TsType → List TsType
  | .tunion a b => [a, b]
  | t => [t]

/-! ## Endpoints and routing -/

/-- The endpoint surface consumed by `client.ts`: `getInputSchema`,
`getPositiveResponseSchema`, `getNegativeResponseSchema`,
`getPositiveMimeTypes`, and the set of methods the endpoint is attached to. -/
structure Endpoint where
  methods : List Method
  input : ZSchema
  positive : ZSchema
  negative : ZSchema
  positiveMimeTypes : List String
deriving Repr

/-- `mimeJson` (`src/mime.ts` as imported by `client.ts`).
Modelled from the spec: `src/mime.ts` is not under `src/`; the spec derives
the JSON marker "from declared MIME types", and the claim fixes the JSON MIME
type as `application/json`. -/
def mimeJson : String := "application/json"

/-- A nested routing declaration: each node maps path segments to
sub-routings, each leaf is an endpoint (attached for all of its methods). -/
inductive Routing where
  | leaf (e : Endpoint)
  | node (children : List (String × Routing))

/-- One flattened (path, method, endpoint) triple produced by traversal. -/
structure RouteEntry where
  path : String
  method : Method
  endpoint : Endpoint

mutual
/-- Flattening of the routing tree in declaration order, concatenating path
segments.  Modelled from the spec: `src/routing.ts` (`routingCycle`) is not
under `src/`; the spec fixes the traversal as "flattens nested routers,
concatenating path segments" and "invokes `visitor(endpoint, fullPath,
method)` once per terminal endpoint in declaration order". -/
def routingEntries : Routing → String → List RouteEntry
  | .leaf e, path => e.methods.map fun m => ⟨path, m, e⟩
  | .node children, path => routingEntriesList children path
def routingEntriesList : List (String × Routing) → String → List RouteEntry
  | [], _ => []
  | (seg, r) :: rest, path =>
      routingEntries r (path ++ "/" ++ seg) ++ routingEntriesList rest path
end

/-- The method-and-path key of one route entry. -/
def RouteEntry.key (r : RouteEntry) : Method × String := (r.method, r.path)

/-! ## Error classes (`src/errors.ts`) -/

/-- `RoutingError` (`src/errors.ts` lines 5-8): an error related to the wrong
Routing declaration, with overridden `name = "RoutingError"`. -/
structure RoutingError where
  name : String
  message : String
deriving DecidableEq, Repr

def RoutingError.make (message : String) : RoutingError :=
  ⟨"RoutingError", message⟩

/-- Uppercasing a string character by character, the `method.toUpperCase()`
of `errors.ts` line 27. -/
def upperStr (s : String) : String := ⟨s.data.map Char.toUpper⟩

/-- `DocumentationError` (`src/errors.ts` lines 13-30). -/
structure DocumentationError where
  name : String
  message : String
deriving DecidableEq, Repr

/-- The constructor of `DocumentationError`: builds the final message from
the given message, the `isResponse` flag, the upper-cased method and the
path, then sets `name = "DocumentationError"`. -/
def DocumentationError.make (message : String) (method : String) (path : String)
    (isResponse : Bool) : DocumentationError :=
  ⟨"DocumentationError",
    message ++ "\nCaused by " ++ (if isResponse then "response" else "input") ++
      " schema of an Endpoint assigned to " ++ upperStr method ++
      " method of " ++ path ++ " path."⟩

/-! ## Routing traversal with the duplicate check

Modelled from the spec: the traversal "fails with an error if two endpoints
resolve to the same (method, path) pair"; the routing error class itself is
the `RoutingError` of `src/errors.ts`. -/

def routingCycle (routing : Routing) : Except RoutingError (List RouteEntry) :=
  let es := routingEntries routing ""
  if (es.map RouteEntry.key).Nodup then Except.ok es
  else Except.error (RoutingError.make "Duplicated routes")

/-! ## Generated identifiers (`src/client-helpers.ts` `cleanId`) -/

/-- Capitalize the first character of a word. -/
def capitalize (s : String) : String :=
  match s.data with
  | [] => ""
  | c :: cs => ⟨Char.toUpper c :: cs⟩

/-- `cleanId(path, method, suffix)`.
Modelled from the spec: `src/client-helpers.ts` is not under `src/`; the spec
requires "every generated name is a syntactically valid identifier", so the
identifier is built from the method, the alphanumeric words of the path and
the suffix, each capitalized and concatenated. -/
def cleanId (path : String) (method : Method) (suffix : String) : String :=
  String.join
    (((method.toStr :: (path.data.splitOnP (fun c => !c.isAlphanum)).map
        (fun w => (⟨w⟩ : String))) ++ [suffix]).map capitalize)

/-! ## The Client Type Generator (`src/client.ts`) -/

/-- One registry record of the `Registry` interface (`client.ts` lines
19-21): the input type name, the response type name, and the JSON marker. -/
structure RegEntry where
  inId : String
  outId : String
  isJson : Bool
deriving DecidableEq, Repr

/-- The declaration nodes pushed into `this.agg`, carrying exactly the data
the TypeScript factory calls of `client.ts` put into them. -/
inductive Decl where
  | alias (name : String) (ty : TsType)
  | pathAlias (paths : List String)
  | methodAlias (methods : List Method)
  | methodPathAlias
  | inputInterface (props : List ((Method × String) × String))
  | responseInterface (props : List ((Method × String) × String))
  | jsonEndpointsConst (keys : List (Method × String))
  | providerType
  | clientClass
deriving Repr

/-- The constructed client artifact: the aggregated declaration list, the
method-path registry, and the collected paths. -/
structure ClientArtifact where
  agg : List Decl
  registry : List ((Method × String) × RegEntry)
  paths : List String
deriving Repr

/-- The two per-endpoint type aliases pushed by the `endpointCb` of
`client.ts` lines 31-51: the input alias over `getInputSchema()` and the
response alias over `getPositiveResponseSchema().or(getNegativeResponseSchema())`. -/
def endpointAliases (r : RouteEntry) : List Decl :=
  [Decl.alias (cleanId r.path r.method "input") (zodToTs r.endpoint.input),
   Decl.alias (cleanId r.path r.method "response")
     (zodToTs (ZSchema.orS r.endpoint.positive r.endpoint.negative))]

/-- The registry accumulated by the `endpointCb` (`client.ts` lines 52-59):
one record per non-`options` entry, keyed by method and path, whose `isJson`
is `getPositiveMimeTypes().includes(mimeJson)`. -/
def mkRegistry (es : List RouteEntry) : List ((Method × String) × RegEntry) :=
  (es.filter fun r => r.method ≠ Method.options).map fun r =>
    ((r.method, r.path),
     ⟨cleanId r.path r.method "input", cleanId r.path r.method "response",
      r.endpoint.positiveMimeTypes.contains mimeJson⟩)

/-- The paths accumulated by the `endpointCb` (`client.ts` line 53): one per
non-`options` entry. -/
def mkPaths (es : List RouteEntry) : List String :=
  (es.filter fun r => r.method ≠ Method.options).map RouteEntry.path

/-- The eight aggregate declarations appended after the traversal
(`client.ts` lines 63-245): `Path`, `Method`, `MethodPath`, `Input`,
`Response`, `jsonEndpoints`, `Provider` and the client class. -/
def aggregateDecls (es : List RouteEntry) : List Decl :=
  [Decl.pathAlias (mkPaths es),
   Decl.methodAlias clientMethodList,
   Decl.methodPathAlias,
   Decl.inputInterface ((mkRegistry es).map fun p => (p.1, p.2.inId)),
   Decl.responseInterface ((mkRegistry es).map fun p => (p.1, p.2.outId)),
   Decl.jsonEndpointsConst (((mkRegistry es).filter fun p => p.2.isJson).map Prod.fst),
   Decl.providerType,
   Decl.clientClass]

/-- The body of the `Client` constructor after a successful traversal: the
per-entry aliases in declaration order followed by the aggregates. -/
def mkClient (es : List RouteEntry) : ClientArtifact :=
  { agg := es.flatMap endpointAliases ++ aggregateDecls es,
    registry := mkRegistry es,
    paths := mkPaths es }

/-- `new Client(routing)`: traversal first; a traversal failure propagates
out of the constructor and no artifact is produced. -/
def buildClient (routing : Routing) : Except RoutingError ClientArtifact :=
  (routingCycle routing).map mkClient

/-! ## Printing (`Client.print`, `client.ts` lines 248-250) -/

mutual
/-- Rendering one type expression to text (the `printNode` collaborator). -/
def printTs : TsType → String
  | .tstring => "string"
  | .tnumber => "number"
  | .tliteral v => "\x22" ++ v ++ "\x22"
  | .tobject fields => "\x7b " ++ printTsFields fields ++ " \x7d"
  | .tarray e => printTs e ++ "[]"
  | .tunion a b => printTs a ++ " | " ++ printTs b
/-- Rendering the fields of an object type. -/
def printTsFields : List (String × TsType) → String
  | [] => ""
  | (n, t) :: rest => n ++ ": " ++ printTs t ++ "; " ++ printTsFields rest
end

/-- Rendering one method-path key the way the registry writes it:
the method literal, a space, and the path. -/
def printKey (k : Method × String) : String := k.1.toStr ++ " " ++ k.2

/-- Rendering one declaration to text. -/
def printDecl : Decl → String
  | .alias n t => "type " ++ n ++ " = " ++ printTs t ++ ";"
  | .pathAlias ps =>
      "type Path = " ++ String.intercalate " | " (ps.map fun p => "\x22" ++ p ++ "\x22") ++ ";"
  | .methodAlias ms =>
      "type Method = " ++
        String.intercalate " | " (ms.map fun m => "\x22" ++ m.toStr ++ "\x22") ++ ";"
  | .methodPathAlias => "type MethodPath = `$\x7bMethod\x7d $\x7bPath\x7d`;"
  | .inputInterface props =>
      "interface Input " ++ String.intercalate "; "
        (props.map fun p => "\x22" ++ printKey p.1 ++ "\x22: " ++ p.2)
  | .responseInterface props =>
      "interface Response " ++ String.intercalate "; "
        (props.map fun p => "\x22" ++ printKey p.1 ++ "\x22: " ++ p.2)
  | .jsonEndpointsConst keys =>
      "const jsonEndpoints = " ++ String.intercalate ", "
        (keys.map fun k => "\x22" ++ printKey k ++ "\x22: true")
  | .providerType => "type Provider = ..."
  | .clientClass => "class ExpressZodAPIClient ..."

/-- `Client.print`: print every aggregated node and join with blank lines. -/
def printClient (c : ClientArtifact) : String :=
  String.intercalate "\n\n" (c.agg.map printDecl)

/-! ## Document schema fragments

`DocSchema` embeds the OpenAPI schema objects of the generated document,
in the forms the document exhibits: plain string schemas with an optional
`pattern`, literal schemas as `type: string` with a singleton `enum`, object
schemas with `properties` and `required`, array schemas, and `$ref` nodes. -/

inductive DocSchema where
  | str (pattern : Option String)
  | num
  | strEnum (values : List String)
  | obj (properties : List (String × DocSchema)) (required : List String)
  | arr (items : DocSchema)
  | oneOf (left right : DocSchema)
  | ref (target : String)
deriving Repr

mutual
/-- Schema-to-document rendering for acyclic schema values.
Modelled from the spec: the Document Assembler source is not under `src/`;
the spec requires `enum`, `pattern` and `required` semantics to round-trip
from the schema metadata, and the generated document renders a literal as a
string type with a singleton enum and an object with all declared fields in
`required`. -/
def renderDoc : ZSchema → DocSchema
  | .str p => .str p
  | .num => .num
  | .lit v => .strEnum [v]
  | .obj fields => .obj (renderDocFields fields) (fields.map Prod.fst)
  | .arr e => .arr (renderDoc e)
  | .orS a b => .oneOf (renderDoc a) (renderDoc b)
/-- Field-wise document rendering of an object schema. -/
def renderDocFields : List (String × ZSchema) → List (String × DocSchema)
  | [] => []
  | (n, s) :: rest => (n, renderDoc s) :: renderDocFields rest
end

/-- One rendered request parameter of an operation. -/
structure DocParameter where
  name : String
  location : String
  required : Bool
  schema : DocSchema
deriving Repr

/-- One rendered operation: its parameters and its responses keyed by
status code (the `application/json` content schema collapsed in). -/
structure Operation where
  parameters : List DocParameter
  responses : List (String × DocSchema)
deriving Repr

/-- Per-route operation assembly.
Modelled from the spec: the Document Assembler source is not under `src/`;
per the spec, for a GET route the top-level fields of the object-shaped input
render individually as required query parameters, the positive outcome
renders as the `200` response schema, and the negative outcome as the `400`
response schema. -/
def assembleOp (r : RouteEntry) : Option Operation :=
  match r.endpoint.input with
  | .obj fields =>
      some { parameters :=
               if r.method = Method.get then
                 fields.map fun p => ⟨p.1, "query", true, renderDoc p.2⟩
               else [],
             responses :=
               [("200", renderDoc r.endpoint.positive),
                ("400", renderDoc r.endpoint.negative)] }
  | _ => none

/-- The assembled paths section: one operation per traversed route entry. -/
def mkDocumentPaths (es : List RouteEntry) : List ((String × Method) × Option Operation) :=
  es.map fun r => ((r.path, r.method), assembleOp r)

/-- Document assembly for a routing declaration: traversal first; a
traversal failure propagates and no document is produced.
Modelled from the spec: the Document Assembler source is not under `src/`;
the spec has both consumers depend on the traversal as their input iterator. -/
def assembleDocument (routing : Routing) :
    Except RoutingError (List ((String × Method) × Option Operation)) :=
  (routingCycle routing).map mkDocumentPaths

/-! ## The substring test used to examine registered component names -/

/-- Does the needle occur as a contiguous run inside the haystack? -/
def hasSubList (needle : List Char) : List Char → Bool
  | [] => needle.isEmpty
  | c :: rest => needle.isPrefixOf (c :: rest) || hasSubList needle rest

/-- Does the needle occur as a contiguous substring of the haystack? -/
def hasSub (needle hay : String) : Bool := hasSubList needle.data hay.data

/-! ## The generated document (`src/unnamed/part_001`), embedded

The parts of the generated OpenAPI document that the claims examine:
the single registered component and the recursive `features` occurrence
under `paths./v1/user/retrieve.get`. -/

/-- The name of the one registered component
(`components.schemas`, document lines 462-463). -/
def featuresComponentName : String := "2048581c137c5b2130eb860e3ae37da196dfc25b"

/-- The registered component body (document lines 463-474): an array of
objects whose `features` member refers back to the component itself. -/
def featuresComponentBody : DocSchema :=
  .arr (.obj [("title", .str none), ("features", .ref featuresComponentName)]
    ["title", "features"])

/-- `components.schemas` of the document: exactly one entry. -/
def documentComponents : List (String × DocSchema) :=
  [(featuresComponentName, featuresComponentBody)]

/-- The `features` member inside
`paths./v1/user/retrieve.get.responses.200...data.properties` (document
lines 33-44): the fully expanded first occurrence of the recursive schema,
whose inner `features` member is a `$ref` to the registered component. -/
def userRetrieveFeaturesOccurrence : DocSchema :=
  .arr (.obj [("title", .str none), ("features", .ref featuresComponentName)]
    ["title", "features"])

/-! ## The Schema Walker and Reference Resolver

Modelled from the spec: the Schema Walker and Reference Resolver sources are
not under `src/`; the spec fixes their contract (depth-first bottom-up
rendering; an in-flight registry for cycle detection; a reference placeholder
on re-entrancy with the component registered once from the first fully
rendered occurrence; a short-circuit reference for shared fully-visited
nodes; failure when a cycle passes no Object/Array boundary), and the
generated document fixes the naming: the registered name is the node's
structural identity digest itself, used verbatim as the `$ref` target.

A possibly-cyclic schema tree is embedded as a finite graph: a list mapping
each node's identity to its definition, whose children are identities. -/

/-- One schema node definition.  `wrap` covers the Optional/Nullable/alias
wrappers: its child sits behind no Object/Array boundary. -/
inductive SDef where
  | prim (kind : String)
  | obj (fields : List (String × String))
  | arr (elem : String)
  | wrap (inner : String)
deriving DecidableEq, Repr

/-- A schema graph: identity to definition, finitely presented. -/
abbrev Graph := List (String × SDef)

/-- A rendered document fragment. -/
inductive Frag where
  | prim (kind : String)
  | obj (fields : List (String × Frag))
  | arr (elem : Frag)
  | ref (target : String)
deriving Repr

/-- The walk state: the in-flight stack (each entry paired with whether an
Object/Array boundary was crossed since it was pushed), the reserved names
(the identity is the name), the registered components and the fully rendered
bodies. -/
structure WalkSt where
  inFlight : List (String × Bool)
  reserved : List String
  comps : List (String × Frag)
  done : List (String × Frag)
deriving Repr

/-- The fresh per-run state. -/
def WalkSt.init : WalkSt := ⟨[], [], [], []⟩

/-- The identities currently being visited. -/
def WalkSt.ids (st : WalkSt) : List String := st.inFlight.map Prod.fst

/-- Record that an Object/Array boundary is being crossed: every in-flight
entry now has a boundary below it. -/
def WalkSt.markBoundary (st : WalkSt) : WalkSt :=
  { st with inFlight := st.inFlight.map fun p => (p.1, true) }

/-- `reserve(identity)`: idempotent name reservation; the name is the
identity itself. -/
def WalkSt.reserveName (i : String) (st : WalkSt) : WalkSt :=
  if i ∈ st.reserved then st else { st with reserved := i :: st.reserved }

/-- Register a component once for an identity. -/
def WalkSt.registerComp (i : String) (b : Frag) (st : WalkSt) : WalkSt :=
  if (st.comps.lookup i).isSome then st else { st with comps := (i, b) :: st.comps }

/-- Completion of a node's visit: pop it from the in-flight stack, record
its fully rendered body, and register the component if a name was reserved
for it while its body was being rendered. -/
def completeWalk (i : String) (body : Frag) (st2 : WalkSt) : WalkSt :=
  let st3 : WalkSt := { st2 with inFlight := st2.inFlight.tail, done := (i, body) :: st2.done }
  if i ∈ st3.reserved then st3.registerComp i body else st3

mutual
/-- The walk of one node: a fully-visited identity short-circuits to a
reference (registering the shared component once); an in-flight identity
behind a boundary yields a reference placeholder (a true cycle); an
in-flight identity behind no boundary is an unrenderable cycle; otherwise
the node is rendered bottom-up and, if its name was reserved while its body
was being rendered, the component is registered with that body.  The fuel
argument only bounds the recursion; enough fuel always exists. -/
def render (g : Graph) : Nat → String → WalkSt → Option (Frag × WalkSt)
  | 0, _, _ => none
  | Nat.succ fuel, i, st =>
    match st.done.lookup i with
    | some body => some (.ref i, (st.reserveName i).registerComp i body)
    | none =>
      match st.inFlight.lookup i with
      | some true => some (.ref i, st.reserveName i)
      | some false => none
      | none =>
        match g.lookup i with
        | none => none
        | some d =>
          match renderDef g fuel d { st with inFlight := (i, false) :: st.inFlight } with
          | none => none
          | some (body, st2) => some (body, completeWalk i body st2)
/-- The walk of one definition: children first, bottom-up composition. -/
def renderDef (g : Graph) : Nat → SDef → WalkSt → Option (Frag × WalkSt)
  | 0, _, _ => none
  | Nat.succ _, .prim k, st => some (.prim k, st)
  | Nat.succ fuel, .arr e, st =>
    match render g fuel e st.markBoundary with
    | none => none
    | some (f, st2) => some (.arr f, st2)
  | Nat.succ fuel, .wrap e, st => render g fuel e st
  | Nat.succ fuel, .obj fs, st =>
    match renderFields g fuel fs st.markBoundary with
    | none => none
    | some (bs, st2) => some (.obj bs, st2)
/-- The walk of an object's fields, left to right, threading the state. -/
def renderFields (g : Graph) :
    Nat → List (String × String) → WalkSt → Option (List (String × Frag) × WalkSt)
  | 0, _, _ => none
  | Nat.succ _, [], st => some ([], st)
  | Nat.succ fuel, (n, c) :: rest, st =>
    match render g fuel c st with
    | none => none
    | some (f, st2) =>
      match renderFields g fuel rest st2 with
      | none => none
      | some (bs, st3) => some ((n, f) :: bs, st3)
end

/-! ## Walker analysis vocabulary -/

/-- The keys of an association list of fragments. -/
def keysOf (l : List (String × Frag)) : List String := l.map Prod.fst

/-- The identities a graph defines. -/
def keysG (g : Graph) : List String := g.map Prod.fst

/-- The child identities of one definition. -/
def childIds : SDef → List String
  | .prim _ => []
  | .obj fs => fs.map Prod.snd
  | .arr e => [e]
  | .wrap e => [e]

/-- A graph is closed when every child identity is defined. -/
def Closed (g : Graph) : Prop :=
  ∀ p ∈ g, ∀ c ∈ childIds p.2, c ∈ keysG g

/-- One parent-to-child edge of the graph. -/
def edgeTo (g : Graph) (a b : String) : Prop :=
  ∃ d, g.lookup a = some d ∧ b ∈ childIds d

/-- Reachability along edges. -/
inductive PathTo (g : Graph) : String → String → Prop where
  | refl (a : String) : PathTo g a a
  | step {a b c : String} : edgeTo g a b → PathTo g b c → PathTo g a c

/-- A path from `a` through the successive nodes of `l` ending at `b`. -/
inductive IsPath (g : Graph) : String → List String → String → Prop where
  | nil (a : String) : IsPath g a [] a
  | cons {a b c : String} {l : List String} :
      edgeTo g a b → IsPath g b l c → IsPath g a (b :: l) c

/-- A wrapper edge: the parent is a wrapper, so the child sits behind no
Object/Array boundary. -/
def wrapEdge (g : Graph) (a b : String) : Prop := g.lookup a = some (.wrap b)

/-- A nonempty chain of wrapper edges. -/
inductive WrapPath (g : Graph) : String → String → Prop where
  | single {a b : String} : wrapEdge g a b → WrapPath g a b
  | cons {a b c : String} : wrapEdge g a b → WrapPath g b c → WrapPath g a c

/-- No cycle of the graph consists of wrapper edges only: every cycle
passes through at least one Object/Array boundary. -/
def BoundaryCycles (g : Graph) : Prop := ∀ j, ¬ WrapPath g j j

/-- A node carrying an Object/Array boundary. -/
def Boundary (g : Graph) (a : String) : Prop :=
  (∃ fs, g.lookup a = some (.obj fs)) ∨ ∃ e, g.lookup a = some (.arr e)

mutual
/-- All reference targets inside one fragment. -/
def refsIn : Frag → List String
  | .prim _ => []
  | .ref n => [n]
  | .arr f => refsIn f
  | .obj fs => refsInFields fs
/-- All reference targets inside a field list. -/
def refsInFields : List (String × Frag) → List String
  | [] => []
  | (_, f) :: rest => refsIn f ++ refsInFields rest
end

mutual
/-- Fragment size, strictly monotone along Object/Array nesting. -/
def fsize : Frag → Nat
  | .prim _ => 1
  | .ref _ => 1
  | .arr f => fsize f + 1
  | .obj fs => fsizeFields fs + 1
/-- Total size of a field list. -/
def fsizeFields : List (String × Frag) → Nat
  | [] => 0
  | (_, f) :: rest => fsize f + fsizeFields rest
end

/-- How a child occurrence may be rendered in a parent body: as a reference
to a reserved name, or as the child's fully rendered body. -/
def ChildOk (st : WalkSt) (c : String) (f : Frag) : Prop :=
  (f = .ref c ∧ c ∈ st.reserved) ∨ st.done.lookup c = some f

/-- A rendered body matches its definition with every child rendered either
as a reserved reference or as the child's registered full body. -/
def FM (st : WalkSt) : SDef → Frag → Prop
  | .prim k, b => b = .prim k
  | .arr e, b => ∃ be, b = .arr be ∧ ChildOk st e be
  | .wrap e, b => ChildOk st e b
  | .obj fs, b => ∃ bs, b = .obj bs ∧
      List.Forall₂ (fun (p : String × String) (q : String × Frag) =>
        q.1 = p.1 ∧ ChildOk st p.2 q.2) fs bs

/-- The walk invariant. -/
structure Inv (g : Graph) (st : WalkSt) : Prop where
  doneNodup : (keysOf st.done).Nodup
  compsNodup : (keysOf st.comps).Nodup
  doneDisj : ∀ i ∈ keysOf st.done, i ∉ st.ids
  goodDone : ∀ p ∈ st.done, ∃ d, g.lookup p.1 = some d ∧ FM st d p.2
  doneRefs : ∀ p ∈ st.done, ∀ n ∈ refsIn p.2, n ∈ st.reserved
  compsSub : ∀ p ∈ st.comps, st.done.lookup p.1 = some p.2
  resCover : ∀ i ∈ st.reserved, i ∈ keysOf st.comps ∨ i ∈ st.ids
  idsSub : ∀ i ∈ st.ids, i ∈ keysG g
  idsNodup : st.ids.Nodup

/-- What one successful walk step guarantees about how the state evolved. -/
structure Post (st st' : WalkSt) : Prop where
  ids_eq : st'.ids = st.ids
  flagMono : ∀ i, (i, false) ∈ st'.inFlight → (i, false) ∈ st.inFlight
  doneExt : ∃ pre, st'.done = pre ++ st.done
  newDoneFresh : ∀ i ∈ keysOf st'.done, i ∉ keysOf st.done → i ∉ st.ids
  compsExt : ∃ pre, st'.comps = pre ++ st.comps
  resExt : ∀ i ∈ st.reserved, i ∈ st'.reserved

/-- In-flight entries with an unmarked boundary flag reach the current node
through wrapper edges only. -/
def FlagsOK (g : Graph) (st : WalkSt) (i : String) : Prop :=
  ∀ j, (j, false) ∈ st.inFlight → WrapPath g j i

/-- The identities not currently in flight, bounding the remaining descent
depth. -/
def remaining (g : Graph) (st : WalkSt) : Nat :=
  ((keysG g).filter fun k => k ∉ st.ids).length

/-- A fuel budget per descent level: two steps of bookkeeping plus one step
per child of the widest definition. -/
def graphWidth (g : Graph) : Nat :=
  2 + g.foldr (fun p acc => max (childIds p.2).length acc) 0

/-- The fuel sufficient for any walk over `g` from a fresh state. -/
def fuelFor (g : Graph) : Nat := graphWidth g * (keysG g).length + 1

/-- No in-flight entry has an unmarked boundary flag. -/
def NoFalse (st : WalkSt) : Prop := ∀ j, (j, false) ∉ st.inFlight

/-- The behavioural specification of `render` at one fuel level. -/
def RenderSpec (g : Graph) (fuel : Nat) : Prop :=
  ∀ i st f st', Inv g st → render g fuel i st = some (f, st') →
    Inv g st' ∧ Post st st' ∧ ChildOk st' i f ∧ ∀ n ∈ refsIn f, n ∈ st'.reserved

/-- The behavioural specification of `renderDef` at one fuel level. -/
def RenderDefSpec (g : Graph) (fuel : Nat) : Prop :=
  ∀ d st f st', Inv g st → renderDef g fuel d st = some (f, st') →
    Inv g st' ∧ Post st st' ∧ FM st' d f ∧ ∀ n ∈ refsIn f, n ∈ st'.reserved

/-- The behavioural specification of `renderFields` at one fuel level. -/
def RenderFieldsSpec (g : Graph) (fuel : Nat) : Prop :=
  ∀ fs st bs st', Inv g st → renderFields g fuel fs st = some (bs, st') →
    Inv g st' ∧ Post st st' ∧
    List.Forall₂ (fun (p : String × String) (q : String × Frag) =>
      q.1 = p.1 ∧ ChildOk st' p.2 q.2) fs bs ∧
    ∀ n ∈ refsInFields bs, n ∈ st'.reserved

/-- Success of `render` at one fuel level, given enough fuel. -/
def RenderTotal (g : Graph) (fuel : Nat) : Prop :=
  ∀ i st, Inv g st → FlagsOK g st i → i ∈ keysG g →
    graphWidth g * remaining g st + 1 ≤ fuel →
    (render g fuel i st).isSome

/-- Success of `renderDef` at one fuel level, given enough fuel. -/
def RenderDefTotal (g : Graph) (fuel : Nat) : Prop :=
  ∀ d st, Inv g st → (∀ c, d = .wrap c → FlagsOK g st c) →
    (∀ c ∈ childIds d, c ∈ keysG g) →
    graphWidth g * remaining g st + (childIds d).length + 2 ≤ fuel →
    (renderDef g fuel d st).isSome

/-- Success of `renderFields` at one fuel level, given enough fuel. -/
def RenderFieldsTotal (g : Graph) (fuel : Nat) : Prop :=
  ∀ fs st, Inv g st → NoFalse st → (∀ p ∈ fs, (p : String × String).2 ∈ keysG g) →
    graphWidth g * remaining g st + fs.length + 1 ≤ fuel →
    (renderFields g fuel fs st).isSome

/-! ## Concrete inputs used by witnesses and counterexamples -/

/-- The recursive features schema of the document, as a graph: an array of
objects whose `features` field is the array itself (document lines 33-48 and
461-474). -/
def featuresGraph : Graph :=
  [(featuresComponentName, .arr "featObj"),
   ("featObj", .obj [("title", "featTitle"), ("features", featuresComponentName)]),
   ("featTitle", .prim "string")]

/-- The scenario endpoint of the testable-properties section: input
`(id : string matching pattern d+)`, success output with `status "success"`
and `data.name`, failure output with `status "error"` and `error.message`. -/
def scenarioEndpoint : Endpoint :=
  { methods := [Method.get],
    input := .obj [("id", .str (some "\\d+"))],
    positive := .obj [("status", .lit "success"),
                      ("data", .obj [("name", .str none)])],
    negative := .obj [("status", .lit "error"),
                      ("error", .obj [("message", .str none)])],
    positiveMimeTypes := [mimeJson] }

/-- The scenario route: GET `/v1/user/retrieve`. -/
def scenarioRouting : Routing :=
  .node [("v1", .node [("user", .node [("retrieve", .leaf scenarioEndpoint)])])]

/-- A raw (non-JSON) endpoint: success body is `text/plain`. -/
def rawEndpoint : Endpoint :=
  { methods := [Method.get],
    input := .obj [],
    positive := .str none,
    negative := .str none,
    positiveMimeTypes := ["text/plain"] }

/-- An endpoint declared for the `options` method only. -/
def optionsEndpoint : Endpoint :=
  { methods := [Method.options],
    input := .obj [],
    positive := .str none,
    negative := .str none,
    positiveMimeTypes := [mimeJson] }

/-- A routing tree declaring one GET route only. -/
def singleGetRouting : Routing := .node [("v1", .leaf scenarioEndpoint)]

/-- A routing tree where two endpoints resolve to the same (method, path)
pair. -/
def duplicateRouting : Routing :=
  .node [("v1", .node [("user", .leaf scenarioEndpoint),
                       ("user", .leaf scenarioEndpoint)])]

/-- A routing tree with one `options` endpoint and one GET endpoint. -/
def optionsRouting : Routing :=
  .node [("opt", .leaf optionsEndpoint), ("v1", .leaf scenarioEndpoint)]

/-- A routing tree with one JSON endpoint and one raw endpoint. -/
def mixedRouting : Routing :=
  .node [("json", .leaf scenarioEndpoint), ("raw", .leaf rawEndpoint)]

/-! ## General lemmas about the generator -/

theorem buildClient_ok_eq {routing : Routing} {c : ClientArtifact}
    (h : buildClient routing = Except.ok c) :
    c = mkClient (routingEntries routing "") ∧
    ((routingEntries routing "").map RouteEntry.key).Nodup := by
  by_cases hd : ((routingEntries routing "").map RouteEntry.key).Nodup
  · refine ⟨?_, hd⟩
    simp only [buildClient, routingCycle, hd, if_true, Except.map] at h
    exact (Except.ok.injEq _ _ ▸ h).symm
  · simp only [buildClient, routingCycle, hd, if_false, Except.map] at h
    cases h

theorem mem_agg_aggregate {es : List RouteEntry} {d : Decl}
    (hd : d ∈ aggregateDecls es) : d ∈ (mkClient es).agg :=
  List.mem_append.mpr (Or.inr hd)

theorem mem_agg_endpoint {es : List RouteEntry} {r : RouteEntry} {d : Decl}
    (hr : r ∈ es) (hd : d ∈ endpointAliases r) : d ∈ (mkClient es).agg :=
  List.mem_append.mpr (Or.inl (List.mem_flatMap.mpr ⟨r, hr, hd⟩))

theorem agg_methodAlias {es : List RouteEntry} {ms : List Method}
    (h : Decl.methodAlias ms ∈ (mkClient es).agg) : ms = clientMethodList := by
  rcases List.mem_append.mp h with h | h
  · rcases List.mem_flatMap.mp h with ⟨r, _, hmem⟩
    simp [endpointAliases] at hmem
  · simp [aggregateDecls] at h
    exact h

theorem agg_inputInterface {es : List RouteEntry} {props : List ((Method × String) × String)}
    (h : Decl.inputInterface props ∈ (mkClient es).agg) :
    props = (mkRegistry es).map fun p => (p.1, p.2.inId) := by
  rcases List.mem_append.mp h with h | h
  · rcases List.mem_flatMap.mp h with ⟨r, _, hmem⟩
    simp [endpointAliases] at hmem
  · simp [aggregateDecls] at h
    exact h

theorem agg_responseInterface {es : List RouteEntry} {props : List ((Method × String) × String)}
    (h : Decl.responseInterface props ∈ (mkClient es).agg) :
    props = (mkRegistry es).map fun p => (p.1, p.2.outId) := by
  rcases List.mem_append.mp h with h | h
  · rcases List.mem_flatMap.mp h with ⟨r, _, hmem⟩
    simp [endpointAliases] at hmem
  · simp [aggregateDecls] at h
    exact h

theorem agg_jsonEndpoints {es : List RouteEntry} {keys : List (Method × String)}
    (h : Decl.jsonEndpointsConst keys ∈ (mkClient es).agg) :
    keys = ((mkRegistry es).filter fun p => p.2.isJson).map Prod.fst := by
  rcases List.mem_append.mp h with h | h
  · rcases List.mem_flatMap.mp h with ⟨r, _, hmem⟩
    simp [endpointAliases] at hmem
  · simp [aggregateDecls] at h
    exact h

theorem registry_key_method {es : List RouteEntry} {k : Method × String}
    (h : k ∈ (mkRegistry es).map Prod.fst) :
    ∃ r ∈ es, r.method ≠ Method.options ∧ k = r.key := by
  rcases List.mem_map.mp h with ⟨p, hp, hk⟩
  rcases List.mem_map.mp hp with ⟨r, hr, hpr⟩
  rcases List.mem_filter.mp hr with ⟨hres, hopt⟩
  refine ⟨r, hres, by simpa using hopt, ?_⟩
  rw [← hk, ← hpr]
  rfl

/-! ## Claims about the error classes and the concrete document -/

/-- C10: every `DocumentationError` constructed with a message, method, path
and `isResponse` flag has name `DocumentationError`, and its final message is
the given message followed by a newline and the text `Caused by response
schema of an Endpoint assigned to METHOD method of PATH path.` when
`isResponse` is true, or the `input` variant when false, with the method
upper-cased. -/
theorem c10_documentation_error (message method path : String) (isResponse : Bool) :
    (DocumentationError.make message method path isResponse).name = "DocumentationError" ∧
    (DocumentationError.make message method path isResponse).message =
      message ++ "\n" ++
        (if isResponse then
          "Caused by response schema of an Endpoint assigned to " ++ upperStr method ++
            " method of " ++ path ++ " path."
         else
          "Caused by input schema of an Endpoint assigned to " ++ upperStr method ++
            " method of " ++ path ++ " path.") := by
  refine ⟨rfl, ?_⟩
  cases isResponse <;>
    (simp only [DocumentationError.make, Bool.false_eq_true, if_false, if_true,
      String.append_assoc]
     rfl)

/-- C7: for the scenario endpoint (input `id` as a string matching `\d+`,
success output `status success` with `data.name`, failure output `status
error` with `error.message`) on GET `/v1/user/retrieve`, the assembled
operation has exactly one query parameter `id` preserving the pattern, and
its `200` and `400` responses carry object schemas matching the two outcome
shapes exactly: status enums, `data`/`error` members and required sets. -/
theorem c7_scenario_document :
    routingEntries scenarioRouting "" =
      [⟨"/v1/user/retrieve", Method.get, scenarioEndpoint⟩] ∧
    assembleOp ⟨"/v1/user/retrieve", Method.get, scenarioEndpoint⟩ =
      some { parameters := [⟨"id", "query", true, DocSchema.str (some "\\d+")⟩],
             responses :=
               [("200", DocSchema.obj
                   [("status", .strEnum ["success"]),
                    ("data", .obj [("name", .str none)] ["name"])]
                   ["status", "data"]),
                ("400", DocSchema.obj
                   [("status", .strEnum ["error"]),
                    ("error", .obj [("message", .str none)] ["message"])]
                   ["status", "error"])] } :=
  ⟨rfl, rfl⟩

/-- C3 counterexample: on a routing tree with a duplicate (method, path)
pair, the traversal error's `name` is `RoutingError`, not
`RoutingConflictError` as the claim states. -/
theorem c3_counterexample :
    ∃ e, routingCycle duplicateRouting = Except.error e ∧
      e.name = "RoutingError" ∧ e.name ≠ "RoutingConflictError" :=
  ⟨RoutingError.make "Duplicated routes", rfl, rfl, by decide⟩

/-- C3 amended: for every routing tree containing two endpoints that resolve
to the same (method, path) pair, traversal fails with the library's routing
error, whose `name` is `RoutingError`, and neither the Document Assembler
nor the Client Type Generator produces an artifact. -/
theorem c3_routing_conflict (routing : Routing)
    (hdup : ¬ ((routingEntries routing "").map RouteEntry.key).Nodup) :
    routingCycle routing = Except.error (RoutingError.make "Duplicated routes") ∧
    (RoutingError.make "Duplicated routes").name = "RoutingError" ∧
    buildClient routing = Except.error (RoutingError.make "Duplicated routes") ∧
    assembleDocument routing = Except.error (RoutingError.make "Duplicated routes") := by
  have h1 : routingCycle routing = Except.error (RoutingError.make "Duplicated routes") := by
    simp only [routingCycle, hdup, if_false]
  exact ⟨h1, rfl, by simp [buildClient, h1, Except.map], by simp [assembleDocument, h1, Except.map]⟩

/-- C3 amended witness: the duplicate routing tree fails as the amended
claim states. -/
theorem c3_routing_conflict_witness :
    (¬ ((routingEntries duplicateRouting "").map RouteEntry.key).Nodup) ∧
    routingCycle duplicateRouting = Except.error (RoutingError.make "Duplicated routes") ∧
    buildClient duplicateRouting = Except.error (RoutingError.make "Duplicated routes") ∧
    assembleDocument duplicateRouting = Except.error (RoutingError.make "Duplicated routes") :=
  ⟨by decide,
   (c3_routing_conflict duplicateRouting (by decide)).1,
   (c3_routing_conflict duplicateRouting (by decide)).2.2.1,
   (c3_routing_conflict duplicateRouting (by decide)).2.2.2⟩

/-- C2 counterexample: for the routing tree declaring a single GET route,
the generated `Method` union still contains `post`, although no route in the
tree is declared with `post`; the claimed equivalence fails. -/
theorem c2_counterexample :
    buildClient singleGetRouting =
      Except.ok (mkClient (routingEntries singleGetRouting "")) ∧
    Decl.methodAlias clientMethodList ∈ (mkClient (routingEntries singleGetRouting "")).agg ∧
    Method.post ∈ clientMethodList ∧
    ∀ r ∈ routingEntries singleGetRouting "", r.method ≠ Method.post :=
  ⟨rfl, mem_agg_aggregate (by simp [aggregateDecls]), by decide, by decide⟩

/-- C2 amended: the generated `Method` type alias is the fixed enumeration
`get | post | put | delete | patch`, emitted once, independent of which
methods the routing tree uses. -/
theorem c2_method_union_fixed (routing : Routing) (c : ClientArtifact)
    (hc : buildClient routing = Except.ok c) :
    Decl.methodAlias clientMethodList ∈ c.agg ∧
    ∀ ms, Decl.methodAlias ms ∈ c.agg → ms = clientMethodList := by
  obtain ⟨rfl, -⟩ := buildClient_ok_eq hc
  exact ⟨mem_agg_aggregate (by simp [aggregateDecls]), fun ms h => agg_methodAlias h⟩

/-- C2 amended witness: the single-GET routing tree gets the fixed method
enumeration. -/
theorem c2_method_union_fixed_witness :
    buildClient singleGetRouting =
      Except.ok (mkClient (routingEntries singleGetRouting "")) ∧
    Decl.methodAlias clientMethodList ∈ (mkClient (routingEntries singleGetRouting "")).agg ∧
    ∀ ms, Decl.methodAlias ms ∈ (mkClient (routingEntries singleGetRouting "")).agg →
      ms = clientMethodList :=
  ⟨rfl,
   (c2_method_union_fixed singleGetRouting _ rfl).1,
   (c2_method_union_fixed singleGetRouting _ rfl).2⟩

/-- C6 counterexample: the one registered component of the generated
document is named `2048581c137c5b2130eb860e3ae37da196dfc25b`; that name
contains no human-readable hint derived from the node's nearest ancestor
field name (`features`) nor from the endpoint path words (`user`,
`retrieve`), contradicting the claimed counter-plus-hint naming. -/
theorem c6_counterexample :
    documentComponents.map Prod.fst = [featuresComponentName] ∧
    hasSub "features" featuresComponentName = false ∧
    hasSub "retrieve" featuresComponentName = false ∧
    hasSub "user" featuresComponentName = false :=
  ⟨rfl, by decide, by decide, by decide⟩

/-- C6 amended: the registered name is the node's structural identity
digest itself — a 40-character hexadecimal string, used verbatim as the
component key and as every reference target — and reservation is
deterministic and idempotent: reserving the same identity again yields the
same name. -/
theorem c6_name_is_identity :
    documentComponents.map Prod.fst = [featuresComponentName] ∧
    featuresComponentName.length = 40 ∧
    featuresComponentName.data.all
      (fun c => c.isDigit || "abcdef".data.contains c) = true ∧
    userRetrieveFeaturesOccurrence = featuresComponentBody ∧
    (∀ (st : WalkSt) (i : String), (st.reserveName i).reserveName i = st.reserveName i) ∧
    ((render featuresGraph (fuelFor featuresGraph) featuresComponentName
        WalkSt.init).map fun r => keysOf r.2.comps) = some [featuresComponentName] := by
  refine ⟨rfl, rfl, by decide, rfl, ?_, rfl⟩
  intro st i
  by_cases h : i ∈ st.reserved
  · simp [WalkSt.reserveName, h]
  · simp [WalkSt.reserveName, h]

/-- C8: generation is deterministic — two runs of Client construction over
the same routing tree, each followed by `print`, produce equal strings (the
embedded generator is a pure function of the routing tree). -/
theorem c8_print_deterministic (routing : Routing) (c c' : ClientArtifact)
    (h : buildClient routing = Except.ok c) (h' : buildClient routing = Except.ok c') :
    printClient c = printClient c' := by
  rw [h] at h'
  cases h'
  rfl

/-- C8 witness: two constructions over the scenario routing print
identically. -/
theorem c8_print_deterministic_witness :
    buildClient scenarioRouting =
      Except.ok (mkClient (routingEntries scenarioRouting "")) ∧
    printClient (mkClient (routingEntries scenarioRouting "")) =
      printClient (mkClient (routingEntries scenarioRouting "")) :=
  ⟨rfl, c8_print_deterministic scenarioRouting _ _ rfl rfl⟩

/-- C4: for every route entry, the emitted response type alias is the union
of the positive-outcome rendering or-ed with the negative-outcome rendering,
and both outcome shapes are members of that one union type. -/
theorem c4_response_union (routing : Routing) (c : ClientArtifact) (r : RouteEntry)
    (hc : buildClient routing = Except.ok c) (hr : r ∈ routingEntries routing "") :
    Decl.alias (cleanId r.path r.method "response")
      (zodToTs (ZSchema.orS r.endpoint.positive r.endpoint.negative)) ∈ c.agg ∧
    zodToTs (ZSchema.orS r.endpoint.positive r.endpoint.negative) =
      TsType.tunion (zodToTs r.endpoint.positive) (zodToTs r.endpoint.negative) ∧
    zodToTs r.endpoint.positive ∈
      (zodToTs (ZSchema.orS r.endpoint.positive r.endpoint.negative)).unionMembers ∧
    zodToTs r.endpoint.negative ∈
      (zodToTs (ZSchema.orS r.endpoint.positive r.endpoint.negative)).unionMembers := by
  obtain ⟨rfl, -⟩ := buildClient_ok_eq hc
  refine ⟨mem_agg_endpoint hr (by simp [endpointAliases]), rfl, ?_, ?_⟩ <;>
    simp [zodToTs, TsType.unionMembers]

/-- C4 witness: the scenario route's response alias is the union of its two
outcome shapes. -/
theorem c4_response_union_witness :
    buildClient scenarioRouting =
      Except.ok (mkClient (routingEntries scenarioRouting "")) ∧
    Decl.alias (cleanId "/v1/user/retrieve" Method.get "response")
      (zodToTs (ZSchema.orS scenarioEndpoint.positive scenarioEndpoint.negative)) ∈
      (mkClient (routingEntries scenarioRouting "")).agg ∧
    zodToTs (ZSchema.orS scenarioEndpoint.positive scenarioEndpoint.negative) =
      TsType.tunion (zodToTs scenarioEndpoint.positive) (zodToTs scenarioEndpoint.negative) :=
  ⟨rfl,
   (c4_response_union scenarioRouting _
     ⟨"/v1/user/retrieve", Method.get, scenarioEndpoint⟩ rfl (List.Mem.head _)).1,
   (c4_response_union scenarioRouting _
     ⟨"/v1/user/retrieve", Method.get, scenarioEndpoint⟩ rfl (List.Mem.head _)).2.1⟩

/-- C5: for every route entry registered in the client artifact (every
non-`options` entry), its method-path key appears in the emitted
`jsonEndpoints` object if and only if the endpoint's declared positive MIME
types include `application/json`. -/
theorem c5_json_endpoints (routing : Routing) (c : ClientArtifact) (r : RouteEntry)
    (hc : buildClient routing = Except.ok c) (hr : r ∈ routingEntries routing "")
    (hm : r.method ≠ Method.options) :
    Decl.jsonEndpointsConst ((c.registry.filter fun p => p.2.isJson).map Prod.fst) ∈ c.agg ∧
    r.key ∈ c.registry.map Prod.fst ∧
    (r.key ∈ (c.registry.filter fun p => p.2.isJson).map Prod.fst ↔
      mimeJson ∈ r.endpoint.positiveMimeTypes) := by
  obtain ⟨rfl, hnd⟩ := buildClient_ok_eq hc
  have hmem : ((r.method, r.path),
      (⟨cleanId r.path r.method "input", cleanId r.path r.method "response",
        r.endpoint.positiveMimeTypes.contains mimeJson⟩ : RegEntry)) ∈
      mkRegistry (routingEntries routing "") :=
    List.mem_map.mpr ⟨r, List.mem_filter.mpr ⟨hr, by simpa using hm⟩, rfl⟩
  refine ⟨mem_agg_aggregate (by simp [aggregateDecls, mkClient]),
    List.mem_map.mpr ⟨_, hmem, rfl⟩, ?_, ?_⟩
  · intro h
    rcases List.mem_map.mp h with ⟨p, hp, hkey⟩
    rcases List.mem_filter.mp hp with ⟨hpreg, hpj⟩
    rcases List.mem_map.mp hpreg with ⟨e, he, hpe⟩
    rcases List.mem_filter.mp he with ⟨hees, _⟩
    have hkeys : e.key = r.key := by
      have h1 : p.1 = e.key := (congrArg Prod.fst hpe).symm
      rw [← hkey, h1]
    have her : e = r :=
      List.inj_on_of_nodup_map hnd hees hr hkeys
    have h2 : p.2.isJson = e.endpoint.positiveMimeTypes.contains mimeJson :=
      (congrArg (fun q => q.2.isJson) hpe).symm
    rw [h2, her] at hpj
    exact List.elem_iff.mp hpj
  · intro h
    refine List.mem_map.mpr ⟨_, List.mem_filter.mpr ⟨hmem, ?_⟩, rfl⟩
    simpa using List.elem_iff.mpr h

/-- C5 witness: in the mixed routing, the JSON endpoint's key is marked and
the raw endpoint is not spuriously marked. -/
theorem c5_json_endpoints_witness :
    buildClient mixedRouting = Except.ok (mkClient (routingEntries mixedRouting "")) ∧
    ((Method.get, "/json") ∈
        (((mkClient (routingEntries mixedRouting "")).registry.filter
          fun p => p.2.isJson).map Prod.fst) ↔
      mimeJson ∈ scenarioEndpoint.positiveMimeTypes) :=
  ⟨rfl,
   (c5_json_endpoints mixedRouting _ ⟨"/json", Method.get, scenarioEndpoint⟩
     rfl (List.Mem.head _) (by decide)).2.2⟩

/-- C9: an endpoint declared with method `options` still has its input and
response aliases emitted into the artifact, but contributes no element to
the `Path` union (the collected paths are exactly those of non-`options`
entries), and its method-path key is absent from the registry and hence from
the `Input` interface, the `Response` interface and `jsonEndpoints`. -/
theorem c9_options_exclusion (routing : Routing) (c : ClientArtifact) (r : RouteEntry)
    (hc : buildClient routing = Except.ok c) (hr : r ∈ routingEntries routing "")
    (hm : r.method = Method.options) :
    Decl.alias (cleanId r.path r.method "input") (zodToTs r.endpoint.input) ∈ c.agg ∧
    Decl.alias (cleanId r.path r.method "response")
      (zodToTs (ZSchema.orS r.endpoint.positive r.endpoint.negative)) ∈ c.agg ∧
    c.paths = ((routingEntries routing "").filter
      fun e => e.method ≠ Method.options).map RouteEntry.path ∧
    r.key ∉ c.registry.map Prod.fst ∧
    (∀ props, Decl.inputInterface props ∈ c.agg → r.key ∉ props.map Prod.fst) ∧
    (∀ props, Decl.responseInterface props ∈ c.agg → r.key ∉ props.map Prod.fst) ∧
    (∀ keys, Decl.jsonEndpointsConst keys ∈ c.agg → r.key ∉ keys) := by
  obtain ⟨rfl, -⟩ := buildClient_ok_eq hc
  have hreg : r.key ∉ (mkRegistry (routingEntries routing "")).map Prod.fst := by
    intro h
    rcases registry_key_method h with ⟨e, _, heopt, hkey⟩
    apply heopt
    have : r.method = e.method := congrArg Prod.fst hkey
    rw [← this, hm]
  refine ⟨mem_agg_endpoint hr (by simp [endpointAliases]),
    mem_agg_endpoint hr (by simp [endpointAliases]), rfl, hreg, ?_, ?_, ?_⟩
  · intro props hp hkey
    rw [agg_inputInterface hp] at hkey
    rw [List.map_map] at hkey
    exact hreg hkey
  · intro props hp hkey
    rw [agg_responseInterface hp] at hkey
    rw [List.map_map] at hkey
    exact hreg hkey
  · intro keys hp hkey
    rw [agg_jsonEndpoints hp] at hkey
    rcases List.mem_map.mp hkey with ⟨p, hpf, hpk⟩
    exact hreg (List.mem_map.mpr ⟨p, (List.mem_filter.mp hpf).1, hpk⟩)

/-! ## Association-list lemmas used by the walker proofs -/

theorem lookup_mem {β : Type} {l : List (String × β)} {k : String} {v : β}
    (h : l.lookup k = some v) : (k, v) ∈ l := by
  induction l with
  | nil => cases h
  | cons p rest ih =>
    rcases p with ⟨a, b⟩
    by_cases hk : k = a
    · subst hk
      simp [List.lookup] at h
      simp [h]
    · simp [List.lookup, beq_false_of_ne hk] at h
      exact List.mem_cons_of_mem _ (ih h)

theorem lookup_isSome_of_mem_keys {β : Type} {l : List (String × β)} {k : String}
    (h : k ∈ l.map Prod.fst) : (l.lookup k).isSome := by
  induction l with
  | nil => cases h
  | cons p rest ih =>
    rcases p with ⟨a, b⟩
    by_cases hk : k = a
    · subst hk; simp [List.lookup]
    · rcases List.mem_cons.mp h with h | h
      · exact absurd h hk
      · simpa [List.lookup, beq_false_of_ne hk] using ih h

theorem mem_keys_of_lookup {β : Type} {l : List (String × β)} {k : String} {v : β}
    (h : l.lookup k = some v) : k ∈ l.map Prod.fst :=
  List.mem_map.mpr ⟨(k, v), lookup_mem h, rfl⟩

theorem not_mem_keys_of_lookup_none {β : Type} {l : List (String × β)} {k : String}
    (h : l.lookup k = none) : k ∉ l.map Prod.fst := by
  intro hm
  have := lookup_isSome_of_mem_keys hm
  rw [h] at this
  cases this

theorem lookup_of_mem_nodup {β : Type} {l : List (String × β)} {k : String} {v : β}
    (hnd : (l.map Prod.fst).Nodup) (h : (k, v) ∈ l) : l.lookup k = some v := by
  induction l with
  | nil => cases h
  | cons p rest ih =>
    rcases p with ⟨a, b⟩
    rcases List.mem_cons.mp h with heq | hmem
    · cases heq
      simp [List.lookup]
    · have hk : k ≠ a := by
        intro hka
        subst hka
        exact (List.nodup_cons.mp hnd).1 (List.mem_map.mpr ⟨(k, v), hmem, rfl⟩)
      simpa [List.lookup, beq_false_of_ne hk] using
        ih (List.nodup_cons.mp hnd).2 hmem

theorem lookup_append_right {β : Type} {pre l : List (String × β)} {k : String} {v : β}
    (hnd : (((pre ++ l)).map Prod.fst).Nodup) (h : l.lookup k = some v) :
    (pre ++ l).lookup k = some v := by
  have hk : k ∈ l.map Prod.fst := mem_keys_of_lookup h
  have hkp : k ∉ pre.map Prod.fst := by
    intro hp
    rw [List.map_append] at hnd
    exact (List.disjoint_of_nodup_append hnd) hp hk
  have hpre : pre.lookup k = none := by
    cases hlp : pre.lookup k with
    | none => rfl
    | some w => exact absurd (mem_keys_of_lookup hlp) hkp
  rw [List.lookup_append, hpre, h]
  rfl

/-! ## Walk state bookkeeping lemmas -/

theorem reserveName_inFlight (st : WalkSt) (i : String) :
    (st.reserveName i).inFlight = st.inFlight := by
  unfold WalkSt.reserveName
  split <;> rfl

theorem reserveName_done (st : WalkSt) (i : String) :
    (st.reserveName i).done = st.done := by
  unfold WalkSt.reserveName
  split <;> rfl

theorem reserveName_comps (st : WalkSt) (i : String) :
    (st.reserveName i).comps = st.comps := by
  unfold WalkSt.reserveName
  split <;> rfl

theorem reserveName_mem (st : WalkSt) (i : String) : i ∈ (st.reserveName i).reserved := by
  unfold WalkSt.reserveName
  split
  · assumption
  · exact List.mem_cons_self _ _

theorem reserveName_sub (st : WalkSt) (i : String) :
    ∀ x ∈ st.reserved, x ∈ (st.reserveName i).reserved := by
  intro x hx
  unfold WalkSt.reserveName
  split
  · exact hx
  · exact List.mem_cons_of_mem _ hx

theorem reserveName_res_cases (st : WalkSt) (i : String) :
    ∀ x ∈ (st.reserveName i).reserved, x = i ∨ x ∈ st.reserved := by
  intro x hx
  unfold WalkSt.reserveName at hx
  split at hx
  · exact Or.inr hx
  · exact (List.mem_cons.mp hx).imp id id

theorem registerComp_inFlight (st : WalkSt) (i : String) (b : Frag) :
    (st.registerComp i b).inFlight = st.inFlight := by
  unfold WalkSt.registerComp
  split <;> rfl

theorem registerComp_done (st : WalkSt) (i : String) (b : Frag) :
    (st.registerComp i b).done = st.done := by
  unfold WalkSt.registerComp
  split <;> rfl

theorem registerComp_ids (st : WalkSt) (i : String) (b : Frag) :
    (st.registerComp i b).ids = st.ids := by
  unfold WalkSt.ids
  rw [registerComp_inFlight]

theorem registerComp_reserved (st : WalkSt) (i : String) (b : Frag) :
    (st.registerComp i b).reserved = st.reserved := by
  unfold WalkSt.registerComp
  split <;> rfl

theorem registerComp_ext (st : WalkSt) (i : String) (b : Frag) :
    ∃ pre, (st.registerComp i b).comps = pre ++ st.comps := by
  unfold WalkSt.registerComp
  split
  · exact ⟨[], rfl⟩
  · exact ⟨[(i, b)], rfl⟩

theorem registerComp_covers (st : WalkSt) (i : String) (b : Frag) :
    i ∈ keysOf (st.registerComp i b).comps := by
  unfold WalkSt.registerComp
  split
  · rename_i hs
    rcases Option.isSome_iff_exists.mp hs with ⟨v, hv⟩
    exact mem_keys_of_lookup hv
  · exact List.mem_cons_self _ _

theorem markBoundary_ids (st : WalkSt) : st.markBoundary.ids = st.ids := by
  unfold WalkSt.markBoundary WalkSt.ids
  simp

theorem markBoundary_done (st : WalkSt) : st.markBoundary.done = st.done := rfl

theorem markBoundary_comps (st : WalkSt) : st.markBoundary.comps = st.comps := rfl

theorem markBoundary_reserved (st : WalkSt) : st.markBoundary.reserved = st.reserved := rfl

theorem markBoundary_no_false (st : WalkSt) : NoFalse st.markBoundary := by
  intro j hj
  unfold WalkSt.markBoundary at hj
  rcases List.mem_map.mp hj with ⟨p, _, hp⟩
  cases hp

/-! ## Monotonicity of the walk predicates -/

theorem childOk_mono {st st' : WalkSt} {c : String} {f : Frag}
    (hres : ∀ x ∈ st.reserved, x ∈ st'.reserved)
    (hdone : ∀ k v, st.done.lookup k = some v → st'.done.lookup k = some v)
    (h : ChildOk st c f) : ChildOk st' c f := by
  rcases h with ⟨hf, hc⟩ | hl
  · exact Or.inl ⟨hf, hres _ hc⟩
  · exact Or.inr (hdone _ _ hl)

theorem fm_mono {st st' : WalkSt} {d : SDef} {b : Frag}
    (hres : ∀ x ∈ st.reserved, x ∈ st'.reserved)
    (hdone : ∀ k v, st.done.lookup k = some v → st'.done.lookup k = some v)
    (h : FM st d b) : FM st' d b := by
  cases d with
  | prim k => exact h
  | arr e =>
    rcases h with ⟨be, hb, hc⟩
    exact ⟨be, hb, childOk_mono hres hdone hc⟩
  | wrap e => exact childOk_mono hres hdone h
  | obj fs =>
    rcases h with ⟨bs, hb, hall⟩
    exact ⟨bs, hb,
      List.Forall₂.imp (fun p q hpq => ⟨hpq.1, childOk_mono hres hdone hpq.2⟩) hall⟩

theorem done_lookup_mono {st st' : WalkSt}
    (hext : ∃ pre, st'.done = pre ++ st.done)
    (hnd : (keysOf st'.done).Nodup) :
    ∀ k v, st.done.lookup k = some v → st'.done.lookup k = some v := by
  rcases hext with ⟨pre, hpre⟩
  intro k v hv
  rw [hpre]
  rw [hpre] at hnd
  exact lookup_append_right hnd hv

theorem post_refl (st : WalkSt) : Post st st :=
  ⟨rfl, fun _ h => h, ⟨[], rfl⟩, fun _ hi h => absurd hi h, ⟨[], rfl⟩, fun _ h => h⟩

theorem post_trans {s1 s2 s3 : WalkSt} (h12 : Post s1 s2) (h23 : Post s2 s3) : Post s1 s3 := by
  refine ⟨h23.ids_eq.trans h12.ids_eq, fun i h => h12.flagMono i (h23.flagMono i h),
    ?_, ?_, ?_, fun i h => h23.resExt i (h12.resExt i h)⟩
  · rcases h12.doneExt with ⟨p1, hp1⟩
    rcases h23.doneExt with ⟨p2, hp2⟩
    exact ⟨p2 ++ p1, by rw [hp2, hp1, List.append_assoc]⟩
  · intro i hi3 hi1
    by_cases hi2 : i ∈ keysOf s2.done
    · exact fun hmem => (h12.newDoneFresh i hi2 hi1) hmem
    · intro hmem
      rw [← h12.ids_eq] at hmem
      exact (h23.newDoneFresh i hi3 hi2) hmem
  · rcases h12.compsExt with ⟨p1, hp1⟩
    rcases h23.compsExt with ⟨p2, hp2⟩
    exact ⟨p2 ++ p1, by rw [hp2, hp1, List.append_assoc]⟩

/-! ## Branch lemmas for the walk specification -/

theorem registerComp_comps_nodup {st : WalkSt} {i : String} {b : Frag}
    (h : (keysOf st.comps).Nodup) : (keysOf (st.registerComp i b).comps).Nodup := by
  unfold WalkSt.registerComp
  split
  · exact h
  · rename_i hn
    have : st.comps.lookup i = none := Option.not_isSome_iff_eq_none.mp hn
    exact List.nodup_cons.mpr ⟨not_mem_keys_of_lookup_none this, h⟩

theorem registerComp_compsSub {st : WalkSt} {i : String} {b : Frag}
    (hold : ∀ p ∈ st.comps, st.done.lookup p.1 = some p.2)
    (hb : st.done.lookup i = some b) :
    ∀ p ∈ (st.registerComp i b).comps, (st.registerComp i b).done.lookup p.1 = some p.2 := by
  intro p hp
  rw [registerComp_done]
  unfold WalkSt.registerComp at hp
  split at hp
  · exact hold p hp
  · rcases List.mem_cons.mp hp with heq | hmem
    · cases heq
      exact hb
    · exact hold p hmem

theorem inv_markBoundary {g : Graph} {st : WalkSt} (h : Inv g st) : Inv g st.markBoundary := by
  refine ⟨h.doneNodup, h.compsNodup, ?_, h.goodDone, h.doneRefs, h.compsSub, ?_, ?_, ?_⟩
  · rw [markBoundary_ids]
    exact h.doneDisj
  · intro x hx
    rw [markBoundary_ids]
    exact h.resCover x hx
  · rw [markBoundary_ids]
    exact h.idsSub
  · rw [markBoundary_ids]
    exact h.idsNodup

theorem post_markBoundary (st : WalkSt) : Post st st.markBoundary :=
  ⟨markBoundary_ids st, fun j hj => absurd hj (markBoundary_no_false st j),
   ⟨[], rfl⟩, fun _ hi h => absurd hi h,
   ⟨[], rfl⟩, fun x hx => hx⟩

theorem spec_done_branch {g : Graph} {i : String} {st : WalkSt} {body : Frag}
    (hInv : Inv g st) (hlk : st.done.lookup i = some body) :
    Inv g ((st.reserveName i).registerComp i body) ∧
    Post st ((st.reserveName i).registerComp i body) ∧
    ChildOk ((st.reserveName i).registerComp i body) i (.ref i) ∧
    ∀ n ∈ refsIn (.ref i), n ∈ ((st.reserveName i).registerComp i body).reserved := by
  set st1 := st.reserveName i with hst1
  set st2 := st1.registerComp i body with hst2
  have hdone2 : st2.done = st.done := by
    rw [hst2, registerComp_done, hst1, reserveName_done]
  have hif2 : st2.inFlight = st.inFlight := by
    rw [hst2, registerComp_inFlight, hst1, reserveName_inFlight]
  have hids2 : st2.ids = st.ids := by
    unfold WalkSt.ids
    rw [hif2]
  have hres2 : st2.reserved = st1.reserved := by
    rw [hst2, registerComp_reserved]
  have hressub : ∀ x ∈ st.reserved, x ∈ st2.reserved := by
    intro x hx
    rw [hres2]
    exact reserveName_sub st i x hx
  have hresmem : i ∈ st2.reserved := by
    rw [hres2]
    exact reserveName_mem st i
  have hcompsext : ∃ pre, st2.comps = pre ++ st.comps := by
    rcases registerComp_ext st1 i body with ⟨pre, hpre⟩
    exact ⟨pre, by rw [hst2, hpre, hst1, reserveName_comps]⟩
  have hdlook : ∀ k v, st.done.lookup k = some v → st2.done.lookup k = some v := by
    intro k v hv
    rw [hdone2]
    exact hv
  have hcomps1 : st1.comps = st.comps := by rw [hst1, reserveName_comps]
  refine ⟨⟨?_, ?_, ?_, ?_, ?_, ?_, ?_, ?_, ?_⟩,
    ⟨hids2, ?_, ⟨[], by rw [hdone2]; exact (List.nil_append st.done).symm⟩, ?_,
     hcompsext, hressub⟩,
    Or.inl ⟨rfl, hresmem⟩, ?_⟩
  · rw [hdone2]; exact hInv.doneNodup
  · rw [hst2]
    apply registerComp_comps_nodup
    rw [hcomps1]
    exact hInv.compsNodup
  · rw [hdone2, hids2]; exact hInv.doneDisj
  · intro p hp
    rw [hdone2] at hp
    rcases hInv.goodDone p hp with ⟨d, hd, hfm⟩
    exact ⟨d, hd, fm_mono hressub hdlook hfm⟩
  · intro p hp
    rw [hdone2] at hp
    intro n hn
    exact hressub n (hInv.doneRefs p hp n hn)
  · rw [hst2]
    apply registerComp_compsSub
    · intro p hp
      rw [hst1, reserveName_done]
      rw [hcomps1] at hp
      exact hInv.compsSub p hp
    · rw [hst1, reserveName_done]
      exact hlk
  · intro x hx
    rw [hres2] at hx
    rcases reserveName_res_cases st i x hx with hxi | hxold
    · subst hxi
      left
      rw [hst2]
      exact registerComp_covers st1 x body
    · rcases hInv.resCover x hxold with hc | hid
      · left
        rcases hcompsext with ⟨pre, hpre⟩
        rw [hpre]
        unfold keysOf
        rw [List.map_append]
        exact List.mem_append.mpr (Or.inr hc)
      · right
        rw [hids2]
        exact hid
  · rw [hids2]; exact hInv.idsSub
  · rw [hids2]; exact hInv.idsNodup
  · intro j hj
    rw [hif2] at hj
    exact hj
  · intro x hx hnx
    rw [hdone2] at hx
    exact absurd hx hnx
  · intro n hn
    have : n = i := by
      simpa [refsIn] using hn
    subst this
    exact hresmem

theorem spec_flight_branch {g : Graph} {i : String} {st : WalkSt}
    (hInv : Inv g st) (hlk : st.inFlight.lookup i = some true) :
    Inv g (st.reserveName i) ∧ Post st (st.reserveName i) ∧
    ChildOk (st.reserveName i) i (.ref i) ∧
    ∀ n ∈ refsIn (.ref i), n ∈ (st.reserveName i).reserved := by
  have hif : (st.reserveName i).inFlight = st.inFlight := reserveName_inFlight st i
  have hdone : (st.reserveName i).done = st.done := reserveName_done st i
  have hcomps : (st.reserveName i).comps = st.comps := reserveName_comps st i
  have hids : (st.reserveName i).ids = st.ids := by
    unfold WalkSt.ids
    rw [hif]
  have hressub : ∀ x ∈ st.reserved, x ∈ (st.reserveName i).reserved := reserveName_sub st i
  have hdlook : ∀ k v, st.done.lookup k = some v → (st.reserveName i).done.lookup k = some v := by
    intro k v hv
    rw [hdone]
    exact hv
  have hiid : i ∈ st.ids :=
    List.mem_map.mpr ⟨(i, true), lookup_mem hlk, rfl⟩
  refine ⟨⟨?_, ?_, ?_, ?_, ?_, ?_, ?_, ?_, ?_⟩,
    ⟨hids, ?_, ⟨[], by rw [hdone]; exact (List.nil_append st.done).symm⟩, ?_,
     ⟨[], by rw [hcomps]; exact (List.nil_append st.comps).symm⟩, hressub⟩,
    Or.inl ⟨rfl, reserveName_mem st i⟩, ?_⟩
  · rw [hdone]; exact hInv.doneNodup
  · rw [hcomps]; exact hInv.compsNodup
  · rw [hdone, hids]; exact hInv.doneDisj
  · intro p hp
    rw [hdone] at hp
    rcases hInv.goodDone p hp with ⟨d, hd, hfm⟩
    exact ⟨d, hd, fm_mono hressub hdlook hfm⟩
  · intro p hp
    rw [hdone] at hp
    intro n hn
    exact hressub n (hInv.doneRefs p hp n hn)
  · rw [hcomps]
    intro p hp
    rw [hdone]
    exact hInv.compsSub p hp
  · intro x hx
    rcases reserveName_res_cases st i x hx with hxi | hxold
    · subst hxi
      right
      rw [hids]
      exact hiid
    · rcases hInv.resCover x hxold with hc | hid
      · left
        rw [hcomps]
        exact hc
      · right
        rw [hids]
        exact hid
  · rw [hids]; exact hInv.idsSub
  · rw [hids]; exact hInv.idsNodup
  · intro j hj
    rw [hif] at hj
    exact hj
  · intro x hx hnx
    rw [hdone] at hx
    exact absurd hx hnx
  · intro n hn
    have hni : n = i := by simpa [refsIn] using hn
    rw [hni]
    exact reserveName_mem st i

theorem inv_push {g : Graph} {st : WalkSt} {i : String} {d : SDef}
    (hInv : Inv g st) (hdone : st.done.lookup i = none)
    (hflight : st.inFlight.lookup i = none) (hg : g.lookup i = some d) :
    Inv g { st with inFlight := (i, false) :: st.inFlight } := by
  have hids : ({ st with inFlight := (i, false) :: st.inFlight } : WalkSt).ids = i :: st.ids := rfl
  have hnotin : i ∉ st.ids := not_mem_keys_of_lookup_none hflight
  refine ⟨hInv.doneNodup, hInv.compsNodup, ?_, hInv.goodDone, hInv.doneRefs,
    hInv.compsSub, ?_, ?_, ?_⟩
  · intro k hk
    rw [hids]
    intro hmem
    rcases List.mem_cons.mp hmem with heq | hmem2
    · subst heq
      exact absurd hk (not_mem_keys_of_lookup_none hdone)
    · exact hInv.doneDisj k hk hmem2
  · intro x hx
    rcases hInv.resCover x hx with hc | hid
    · exact Or.inl hc
    · right
      rw [hids]
      exact List.mem_cons_of_mem _ hid
  · rw [hids]
    intro x hx
    rcases List.mem_cons.mp hx with heq | hmem
    · subst heq
      exact mem_keys_of_lookup hg
    · exact hInv.idsSub x hmem
  · rw [hids]
    exact List.nodup_cons.mpr ⟨hnotin, hInv.idsNodup⟩

theorem spec_complete {g : Graph} {st st2 : WalkSt} {i : String} {d : SDef} {body : Frag}
    (hInv : Inv g st)
    (hdone : st.done.lookup i = none)
    (hflight : st.inFlight.lookup i = none)
    (hg : g.lookup i = some d)
    (hInv2 : Inv g st2)
    (hPost : Post { st with inFlight := (i, false) :: st.inFlight } st2)
    (hFM : FM st2 d body)
    (hrefs : ∀ n ∈ refsIn body, n ∈ st2.reserved) :
    Inv g (completeWalk i body st2) ∧ Post st (completeWalk i body st2) ∧
    ChildOk (completeWalk i body st2) i body ∧
    ∀ n ∈ refsIn body, n ∈ (completeWalk i body st2).reserved := by
  have hii : i ∉ st.ids := not_mem_keys_of_lookup_none hflight
  have hids1 : ({ st with inFlight := (i, false) :: st.inFlight } : WalkSt).ids = i :: st.ids := rfl
  have hids2 : st2.ids = i :: st.ids := by
    rw [hPost.ids_eq]
    exact hids1
  obtain ⟨p, tl, hif2⟩ : ∃ p tl, st2.inFlight = p :: tl := by
    cases hifc : st2.inFlight with
    | nil =>
      exfalso
      have := hids2
      unfold WalkSt.ids at this
      rw [hifc] at this
      cases this
    | cons p tl => exact ⟨p, tl, rfl⟩
  have htl : tl.map Prod.fst = st.ids := by
    have := hids2
    unfold WalkSt.ids at this
    rw [hif2] at this
    exact (List.cons.injEq _ _ _ _ ▸ this).2
  set st3 : WalkSt :=
    { st2 with inFlight := st2.inFlight.tail, done := (i, body) :: st2.done } with hst3
  have hids3 : st3.ids = st.ids := by
    unfold WalkSt.ids
    rw [hst3]
    simp only [hif2, List.tail_cons]
    exact htl
  have hino2 : i ∉ keysOf st2.done := by
    intro hmem
    have hni1 : i ∉ keysOf st.done := not_mem_keys_of_lookup_none hdone
    have := hPost.newDoneFresh i hmem hni1
    rw [hids1] at this
    exact this (List.mem_cons_self _ _)
  have hnd3 : (keysOf st3.done).Nodup := List.nodup_cons.mpr ⟨hino2, hInv2.doneNodup⟩
  have hlk3 : st3.done.lookup i = some body := by
    simp [hst3, List.lookup]
  have hmono23 : ∀ k v, st2.done.lookup k = some v → st3.done.lookup k = some v := by
    intro k v hv
    exact @lookup_append_right _ [(i, body)] st2.done _ _ hnd3 hv
  have hres3 : st3.reserved = st2.reserved := rfl
  have hdoneext : ∃ pre, st3.done = pre ++ st.done := by
    rcases hPost.doneExt with ⟨pre, hpre⟩
    exact ⟨(i, body) :: pre, by rw [hst3]; simp only [hpre]; rfl⟩
  have hcompsext2 : ∃ pre, st2.comps = pre ++ st.comps := hPost.compsExt
  have hflag3 : ∀ j, (j, false) ∈ st3.inFlight → (j, false) ∈ st.inFlight := by
    intro j hj
    rw [hst3] at hj
    simp only [hif2, List.tail_cons] at hj
    have hj2 : (j, false) ∈ st2.inFlight := by
      rw [hif2]
      exact List.mem_cons_of_mem _ hj
    have := hPost.flagMono j hj2
    rcases List.mem_cons.mp this with heq | hmem
    · exfalso
      have hji : j = i := congrArg Prod.fst heq
      subst hji
      have : j ∈ tl.map Prod.fst := List.mem_map.mpr ⟨(j, false), hj, rfl⟩
      rw [htl] at this
      exact hii this
    · exact hmem
  have hfresh3 : ∀ k ∈ keysOf st3.done, k ∉ keysOf st.done → k ∉ st.ids := by
    intro k hk hnk
    rcases List.mem_cons.mp hk with heq | hmem
    · subst heq
      exact hii
    · have hni1 : k ∉ keysOf st.done := hnk
      have := hPost.newDoneFresh k hmem hni1
      rw [hids1] at this
      intro hmem2
      exact this (List.mem_cons_of_mem _ hmem2)
  have hressub23 : ∀ x ∈ st2.reserved, x ∈ st3.reserved := fun _ hx => hx
  have hgood3 : ∀ p ∈ st3.done, ∃ dd, g.lookup p.1 = some dd ∧ FM st3 dd p.2 := by
    intro q hq
    rcases List.mem_cons.mp hq with heq | hmem
    · subst heq
      exact ⟨d, hg, fm_mono hressub23 hmono23 hFM⟩
    · rcases hInv2.goodDone q hmem with ⟨dd, hdd, hfm⟩
      exact ⟨dd, hdd, fm_mono hressub23 hmono23 hfm⟩
  have hdrefs3 : ∀ p ∈ st3.done, ∀ n ∈ refsIn p.2, n ∈ st3.reserved := by
    intro q hq n hn
    rcases List.mem_cons.mp hq with heq | hmem
    · subst heq
      exact hrefs n hn
    · exact hInv2.doneRefs q hmem n hn
  have hdisj3 : ∀ k ∈ keysOf st3.done, k ∉ st3.ids := by
    intro k hk
    rw [hids3]
    rcases List.mem_cons.mp hk with heq | hmem
    · subst heq
      exact hii
    · intro hmem2
      have := hInv2.doneDisj k hmem
      rw [hids2] at this
      exact this (List.mem_cons_of_mem _ hmem2)
  have hsub3 : ∀ q ∈ st3.comps, st3.done.lookup q.1 = some q.2 := by
    intro q hq
    exact hmono23 _ _ (hInv2.compsSub q hq)
  have hidssub3 : ∀ x ∈ st3.ids, x ∈ keysG g := by
    rw [hids3]
    intro x hx
    have := hInv2.idsSub x
    rw [hids2] at this
    exact this (List.mem_cons_of_mem _ hx)
  have hidsnd3 : st3.ids.Nodup := by
    rw [hids3]
    have := hInv2.idsNodup
    rw [hids2] at this
    exact (List.nodup_cons.mp this).2
  have hresext : ∀ x ∈ st.reserved, x ∈ st2.reserved := fun x hx => hPost.resExt x hx
  unfold completeWalk
  rw [← hst3]
  by_cases hrescase : i ∈ st3.reserved
  · simp only [hrescase, if_true]
    have hcomps_r : (st3.registerComp i body).comps = (st3.registerComp i body).comps := rfl
    refine ⟨⟨?_, ?_, ?_, ?_, ?_, ?_, ?_, ?_, ?_⟩, ⟨?_, ?_, ?_, ?_, ?_, ?_⟩, ?_, ?_⟩
    · rw [registerComp_done]
      exact hnd3
    · exact registerComp_comps_nodup hInv2.compsNodup
    · rw [registerComp_done]
      intro k hk
      rw [registerComp_ids]
      exact hdisj3 k hk
    · rw [registerComp_done]
      intro q hq
      rcases hgood3 q hq with ⟨dd, hdd, hfm⟩
      refine ⟨dd, hdd, fm_mono ?_ ?_ hfm⟩
      · rw [registerComp_reserved]
        exact fun x hx => hx
      · rw [registerComp_done]
        exact fun k v hv => hv
    · rw [registerComp_done, registerComp_reserved]
      exact hdrefs3
    · exact registerComp_compsSub hsub3 hlk3
    · rw [registerComp_reserved]
      intro x hx
      have hx2 : x ∈ st2.reserved := hx
      rcases hInv2.resCover x hx2 with hc | hid
      · left
        rcases registerComp_ext st3 i body with ⟨pre, hpre⟩
        rw [hpre]
        unfold keysOf
        rw [List.map_append]
        exact List.mem_append.mpr (Or.inr hc)
      · rw [hids2] at hid
        rcases List.mem_cons.mp hid with heq | hmem
        · subst heq
          left
          exact registerComp_covers st3 x body
        · right
          rw [registerComp_ids, hids3]
          exact hmem
    · rw [registerComp_ids]
      exact hidssub3
    · rw [registerComp_ids]
      exact hidsnd3
    · rw [registerComp_ids]
      exact hids3
    · intro j hj
      rw [registerComp_inFlight] at hj
      exact hflag3 j hj
    · rw [registerComp_done]
      exact hdoneext
    · rw [registerComp_done]
      exact hfresh3
    · rcases registerComp_ext st3 i body with ⟨pre, hpre⟩
      rcases hcompsext2 with ⟨pre2, hpre2⟩
      refine ⟨pre ++ pre2, ?_⟩
      rw [hpre]
      have : st3.comps = st2.comps := rfl
      rw [this, hpre2, List.append_assoc]
    · intro x hx
      rw [registerComp_reserved]
      exact hresext x hx
    · right
      rw [registerComp_done]
      exact hlk3
    · intro n hn
      rw [registerComp_reserved]
      exact hrefs n hn
  · simp only [hrescase, if_false]
    refine ⟨⟨hnd3, hInv2.compsNodup, hdisj3, hgood3, hdrefs3, hsub3, ?_, hidssub3, hidsnd3⟩,
      ⟨hids3, hflag3, hdoneext, hfresh3, hcompsext2, hresext⟩,
      Or.inr hlk3, hrefs⟩
    intro x hx
    have hx2 : x ∈ st2.reserved := hx
    rcases hInv2.resCover x hx2 with hc | hid
    · exact Or.inl hc
    · rw [hids2] at hid
      rcases List.mem_cons.mp hid with heq | hmem
      · exfalso
        subst heq
        exact hrescase hx
      · right
        rw [hids3]
        exact hmem

theorem renderSpec_all (g : Graph) :
    ∀ fuel, RenderSpec g fuel ∧ RenderDefSpec g fuel ∧ RenderFieldsSpec g fuel := by
  intro fuel
  induction fuel with
  | zero =>
    refine ⟨?_, ?_, ?_⟩
    · intro i st f st' _ h
      cases h
    · intro d st f st' _ h
      cases h
    · intro fs st bs st' _ h
      cases h
  | succ fuel ih =>
    obtain ⟨ihR, ihD, ihF⟩ := ih
    have hR : RenderSpec g (fuel + 1) := by
      intro i st f st' hInv h
      cases hdl : st.done.lookup i with
      | some body =>
        simp only [render, hdl] at h
        rw [Option.some.injEq, Prod.mk.injEq] at h
        obtain ⟨hf, hst⟩ := h
        subst hf
        subst hst
        exact spec_done_branch hInv hdl
      | none =>
        cases hfl : st.inFlight.lookup i with
        | some b =>
          cases b
          · simp only [render, hdl, hfl] at h
            cases h
          · simp only [render, hdl, hfl] at h
            rw [Option.some.injEq, Prod.mk.injEq] at h
            obtain ⟨hf, hst⟩ := h
            subst hf
            subst hst
            exact spec_flight_branch hInv hfl
        | none =>
          cases hgl : g.lookup i with
          | none =>
            simp only [render, hdl, hfl, hgl] at h
            cases h
          | some d =>
            simp only [render, hdl, hfl, hgl] at h
            cases hrd : renderDef g fuel d { st with inFlight := (i, false) :: st.inFlight } with
            | none =>
              simp only [hrd] at h
              cases h
            | some pr =>
              rcases pr with ⟨body, st2⟩
              simp only [hrd] at h
              rw [Option.some.injEq, Prod.mk.injEq] at h
              obtain ⟨hf, hst⟩ := h
              subst hf
              subst hst
              have hInv1 := inv_push hInv hdl hfl hgl
              obtain ⟨hInv2, hPost12, hFM, hrefs⟩ := ihD d _ body st2 hInv1 hrd
              exact spec_complete hInv hdl hfl hgl hInv2 hPost12 hFM hrefs
    have hF : RenderFieldsSpec g (fuel + 1) := by
      intro fs st bs st' hInv h
      cases fs with
      | nil =>
        simp only [renderFields] at h
        rw [Option.some.injEq, Prod.mk.injEq] at h
        obtain ⟨hb, hst⟩ := h
        subst hb
        subst hst
        exact ⟨hInv, post_refl st, List.Forall₂.nil, by intro n hn; cases hn⟩
      | cons hd tl =>
        rcases hd with ⟨n, c⟩
        simp only [renderFields] at h
        cases hrc : render g fuel c st with
        | none =>
          simp only [hrc] at h
          cases h
        | some pr =>
          rcases pr with ⟨f, st2⟩
          simp only [hrc] at h
          cases hrt : renderFields g fuel tl st2 with
          | none =>
            simp only [hrt] at h
            cases h
          | some pr2 =>
            rcases pr2 with ⟨bs2, st3⟩
            simp only [hrt] at h
            rw [Option.some.injEq, Prod.mk.injEq] at h
            obtain ⟨hb, hst⟩ := h
            subst hb
            subst hst
            obtain ⟨hInv2, hPost2, hCo, hrefs2⟩ := ihR c st f st2 hInv hrc
            obtain ⟨hInv3, hPost3, hAll, hrefs3⟩ := ihF tl st2 bs2 st3 hInv2 hrt
            have hmono : ∀ k v, st2.done.lookup k = some v → st3.done.lookup k = some v :=
              done_lookup_mono hPost3.doneExt hInv3.doneNodup
            refine ⟨hInv3, post_trans hPost2 hPost3,
              List.Forall₂.cons ⟨rfl, childOk_mono hPost3.resExt hmono hCo⟩ hAll, ?_⟩
            intro m hm
            rw [show refsInFields ((n, f) :: bs2) = refsIn f ++ refsInFields bs2 from rfl] at hm
            rcases List.mem_append.mp hm with hmf | hmb
            · exact hPost3.resExt m (hrefs2 m hmf)
            · exact hrefs3 m hmb
    have hD : RenderDefSpec g (fuel + 1) := by
      intro d st f st' hInv h
      cases d with
      | prim k =>
        simp only [renderDef] at h
        rw [Option.some.injEq, Prod.mk.injEq] at h
        obtain ⟨hf, hst⟩ := h
        subst hf
        subst hst
        exact ⟨hInv, post_refl st, rfl, by intro n hn; cases hn⟩
      | arr e =>
        simp only [renderDef] at h
        cases hre : render g fuel e st.markBoundary with
        | none =>
          simp only [hre] at h
          cases h
        | some pr =>
          rcases pr with ⟨fe, st2⟩
          simp only [hre] at h
          rw [Option.some.injEq, Prod.mk.injEq] at h
          obtain ⟨hf, hst⟩ := h
          subst hf
          subst hst
          obtain ⟨hInv2, hPost2, hCo, hrefs2⟩ := ihR e st.markBoundary fe st2
            (inv_markBoundary hInv) hre
          exact ⟨hInv2, post_trans (post_markBoundary st) hPost2, ⟨fe, rfl, hCo⟩, hrefs2⟩
      | wrap e =>
        simp only [renderDef] at h
        obtain ⟨hInv2, hPost2, hCo, hrefs2⟩ := ihR e st f st' hInv h
        exact ⟨hInv2, hPost2, hCo, hrefs2⟩
      | obj fs =>
        simp only [renderDef] at h
        cases hrf : renderFields g fuel fs st.markBoundary with
        | none =>
          simp only [hrf] at h
          cases h
        | some pr =>
          rcases pr with ⟨bs, st2⟩
          simp only [hrf] at h
          rw [Option.some.injEq, Prod.mk.injEq] at h
          obtain ⟨hf, hst⟩ := h
          subst hf
          subst hst
          obtain ⟨hInv2, hPost2, hAll, hrefs2⟩ := ihF fs st.markBoundary bs st2
            (inv_markBoundary hInv) hrf
          exact ⟨hInv2, post_trans (post_markBoundary st) hPost2, ⟨bs, rfl, hAll⟩, hrefs2⟩
    exact ⟨hR, hD, hF⟩

/-! ## Fuel sufficiency -/

theorem wplus_snoc {g : Graph} {a b c : String}
    (h : WrapPath g a b) (he : wrapEdge g b c) : WrapPath g a c := by
  induction h with
  | single h1 => exact WrapPath.cons h1 (WrapPath.single he)
  | cons h1 _ ih => exact WrapPath.cons h1 (ih he)

theorem flagsOK_of_noFalse {g : Graph} {st : WalkSt} (h : NoFalse st) (x : String) :
    FlagsOK g st x := fun j hj => absurd hj (h j)

theorem noFalse_of_post {st st' : WalkSt} (hp : Post st st') (h : NoFalse st) :
    NoFalse st' := fun j hj => h j (hp.flagMono j hj)

theorem remaining_eq_of_ids {g : Graph} {st st' : WalkSt} (h : st'.ids = st.ids) :
    remaining g st' = remaining g st := by
  unfold remaining
  rw [h]

theorem remaining_markBoundary (g : Graph) (st : WalkSt) :
    remaining g st.markBoundary = remaining g st :=
  remaining_eq_of_ids (markBoundary_ids st)

theorem width_bound {g : Graph} {i : String} {d : SDef} (h : (i, d) ∈ g) :
    (childIds d).length + 2 ≤ graphWidth g := by
  unfold graphWidth
  have : (childIds d).length ≤ g.foldr (fun p acc => max (childIds p.2).length acc) 0 := by
    induction g with
    | nil => cases h
    | cons q rest ih =>
      rcases List.mem_cons.mp h with heq | hmem
      · subst heq
        exact le_max_left _ _
      · exact le_trans (ih hmem) (le_max_right _ _)
  omega

theorem filter_notmem_le (l ids : List String) (i : String) :
    ((l.filter fun k => k ∉ i :: ids).length) ≤ ((l.filter fun k => k ∉ ids).length) := by
  induction l with
  | nil => simp
  | cons a rest ih =>
    by_cases hmem : a ∈ ids
    · simp only [List.filter_cons]
      rw [if_neg (by simp [hmem]), if_neg (by simpa using hmem)]
      exact ih
    · by_cases hai : a = i
      · simp only [List.filter_cons]
        rw [if_neg (by simp [hai]), if_pos (by simpa using hmem)]
        exact le_trans ih (Nat.le_succ _)
      · have h1 : (a ∉ i :: ids) := by
          intro hc
          rcases List.mem_cons.mp hc with he | hm
          · exact hai he
          · exact hmem hm
        simp only [List.filter_cons]
        rw [if_pos (by simpa using h1), if_pos (by simpa using hmem)]
        simpa using ih

theorem filter_notmem_lt {l ids : List String} {i : String}
    (hil : i ∈ l) (hni : i ∉ ids) :
    ((l.filter fun k => k ∉ i :: ids).length) < ((l.filter fun k => k ∉ ids).length) := by
  induction l with
  | nil => cases hil
  | cons a rest ih =>
    by_cases hai : a = i
    · subst hai
      simp only [List.filter_cons]
      rw [if_neg (by simp), if_pos (by simpa using hni)]
      exact Nat.lt_succ_of_le (filter_notmem_le rest ids a)
    · have hil2 : i ∈ rest := by
        rcases List.mem_cons.mp hil with he | hm
        · exact absurd he.symm hai
        · exact hm
      by_cases hmem : a ∈ ids
      · simp only [List.filter_cons]
        rw [if_neg (by simp [hmem]), if_neg (by simpa using hmem)]
        exact ih hil2
      · have h1 : (a ∉ i :: ids) := by
          intro hc
          rcases List.mem_cons.mp hc with he | hm
          · exact hai he
          · exact hmem hm
        simp only [List.filter_cons]
        rw [if_pos (by simpa using h1), if_pos (by simpa using hmem)]
        simpa using ih hil2

theorem remaining_push_lt {g : Graph} {st : WalkSt} {i : String}
    (hik : i ∈ keysG g) (hni : i ∉ st.ids) :
    remaining g { st with inFlight := (i, false) :: st.inFlight } < remaining g st := by
  unfold remaining
  exact filter_notmem_lt hik hni

theorem renderTotal_all (g : Graph) (hB : BoundaryCycles g) (hC : Closed g) :
    ∀ fuel, RenderTotal g fuel ∧ RenderDefTotal g fuel ∧ RenderFieldsTotal g fuel := by
  intro fuel
  induction fuel with
  | zero =>
    refine ⟨?_, ?_, ?_⟩
    · intro i st _ _ _ hb
      omega
    · intro d st _ _ _ hb
      omega
    · intro fs st _ _ _ hb
      omega
  | succ fuel ih =>
    obtain ⟨ihR, ihD, ihF⟩ := ih
    have hR : RenderTotal g (fuel + 1) := by
      intro i st hInv hFlags hik hfuel
      cases hdl : st.done.lookup i with
      | some body => simp [render, hdl]
      | none =>
        cases hfl : st.inFlight.lookup i with
        | some b =>
          cases b
          · exact absurd (hFlags i (lookup_mem hfl)) (hB i)
          · simp [render, hdl, hfl]
        | none =>
          cases hgl : g.lookup i with
          | none =>
            exfalso
            have hs := @lookup_isSome_of_mem_keys _ g _ hik
            rw [hgl] at hs
            cases hs
          | some d =>
            have hInv1 : Inv g { st with inFlight := (i, false) :: st.inFlight } :=
              inv_push hInv hdl hfl hgl
            have hgd : (i, d) ∈ g := lookup_mem hgl
            have hkb : (childIds d).length + 2 ≤ graphWidth g := width_bound hgd
            have hni : i ∉ st.ids := not_mem_keys_of_lookup_none hfl
            have hrlt : remaining g { st with inFlight := (i, false) :: st.inFlight } <
                remaining g st := remaining_push_lt hik hni
            have hwrap : ∀ c, d = .wrap c →
                FlagsOK g { st with inFlight := (i, false) :: st.inFlight } c := by
              intro c hdc
              subst hdc
              intro j hj
              rcases List.mem_cons.mp hj with heq | hmem
              · have hji : j = i := congrArg Prod.fst heq
                subst hji
                exact WrapPath.single hgl
              · exact wplus_snoc (hFlags j hmem) hgl
            have hchild : ∀ c ∈ childIds d, c ∈ keysG g := hC (i, d) hgd
            have hbound : graphWidth g *
                remaining g { st with inFlight := (i, false) :: st.inFlight } +
                (childIds d).length + 2 ≤ fuel := by
              have h3 : graphWidth g *
                  (remaining g { st with inFlight := (i, false) :: st.inFlight } + 1) ≤
                  graphWidth g * remaining g st :=
                Nat.mul_le_mul_left _ hrlt
              have h4 : graphWidth g *
                  (remaining g { st with inFlight := (i, false) :: st.inFlight } + 1) =
                  graphWidth g *
                    remaining g { st with inFlight := (i, false) :: st.inFlight } +
                    graphWidth g := by ring
              omega
            have hsome := ihD d _ hInv1 hwrap hchild hbound
            rcases Option.isSome_iff_exists.mp hsome with ⟨pr, hpr⟩
            rcases pr with ⟨body, st2⟩
            simp [render, hdl, hfl, hgl, hpr]
    have hF : RenderFieldsTotal g (fuel + 1) := by
      intro fs st hInv hNF hch hfuel
      cases fs with
      | nil => simp [renderFields]
      | cons hd tl =>
        rcases hd with ⟨n, c⟩
        have hcK : c ∈ keysG g := hch (n, c) (List.mem_cons_self _ _)
        have hlen : ((n, c) :: tl).length = tl.length + 1 := rfl
        have hb1 : graphWidth g * remaining g st + 1 ≤ fuel := by
          rw [hlen] at hfuel
          omega
        have hsome1 := ihR c st hInv (flagsOK_of_noFalse hNF c) hcK hb1
        rcases Option.isSome_iff_exists.mp hsome1 with ⟨pr, hpr⟩
        rcases pr with ⟨f, st2⟩
        obtain ⟨hInv2, hPost2, -, -⟩ := (renderSpec_all g fuel).1 c st f st2 hInv hpr
        have hNF2 : NoFalse st2 := noFalse_of_post hPost2 hNF
        have hrem2 : remaining g st2 = remaining g st := remaining_eq_of_ids hPost2.ids_eq
        have hch2 : ∀ p ∈ tl, (p : String × String).2 ∈ keysG g := fun p hp =>
          hch p (List.mem_cons_of_mem _ hp)
        have hb2 : graphWidth g * remaining g st2 + tl.length + 1 ≤ fuel := by
          rw [hrem2]
          rw [hlen] at hfuel
          omega
        have hsome2 := ihF tl st2 hInv2 hNF2 hch2 hb2
        rcases Option.isSome_iff_exists.mp hsome2 with ⟨pr2, hpr2⟩
        rcases pr2 with ⟨bs, st3⟩
        simp [renderFields, hpr, hpr2]
    have hD : RenderDefTotal g (fuel + 1) := by
      intro d st hInv hwrap hch hfuel
      cases d with
      | prim k => simp [renderDef]
      | arr e =>
        have heK : e ∈ keysG g := hch e (by simp [childIds])
        have hb1 : graphWidth g * remaining g st.markBoundary + 1 ≤ fuel := by
          rw [remaining_markBoundary]
          simp only [childIds, List.length_singleton] at hfuel
          omega
        have hsome := ihR e st.markBoundary (inv_markBoundary hInv)
          (flagsOK_of_noFalse (markBoundary_no_false st) e) heK hb1
        rcases Option.isSome_iff_exists.mp hsome with ⟨pr, hpr⟩
        rcases pr with ⟨f, st2⟩
        simp [renderDef, hpr]
      | wrap e =>
        have heK : e ∈ keysG g := hch e (by simp [childIds])
        have hb1 : graphWidth g * remaining g st + 1 ≤ fuel := by
          simp only [childIds, List.length_singleton] at hfuel
          omega
        have hsome := ihR e st hInv (hwrap e rfl) heK hb1
        rcases Option.isSome_iff_exists.mp hsome with ⟨pr, hpr⟩
        rcases pr with ⟨f, st2⟩
        simp [renderDef, hpr]
      | obj fs =>
        have hchf : ∀ p ∈ fs, (p : String × String).2 ∈ keysG g := by
          intro p hp
          exact hch p.2 (show p.2 ∈ fs.map Prod.snd from List.mem_map.mpr ⟨p, hp, rfl⟩)
        have hb1 : graphWidth g * remaining g st.markBoundary + fs.length + 1 ≤ fuel := by
          rw [remaining_markBoundary]
          simp only [childIds, List.length_map] at hfuel
          omega
        have hsome := ihF fs st.markBoundary (inv_markBoundary hInv)
          (markBoundary_no_false st) hchf hb1
        rcases Option.isSome_iff_exists.mp hsome with ⟨pr, hpr⟩
        rcases pr with ⟨bs, st2⟩
        simp [renderDef, hpr]
    exact ⟨hR, hD, hF⟩

/-! ## End-state analysis of a completed walk -/

theorem inv_init (g : Graph) : Inv g WalkSt.init := by
  refine ⟨List.nodup_nil, List.nodup_nil, ?_, ?_, ?_, ?_, ?_, ?_, List.nodup_nil⟩ <;>
    intro x hx <;> cases hx

theorem remaining_init (g : Graph) : remaining g WalkSt.init = (keysG g).length := by
  unfold remaining WalkSt.init WalkSt.ids
  simp

theorem forall₂_mem_left {α β : Type} {R : α → β → Prop} {l1 : List α} {l2 : List β}
    (h : List.Forall₂ R l1 l2) {a : α} (ha : a ∈ l1) : ∃ b ∈ l2, R a b := by
  induction h with
  | nil => cases ha
  | cons hr1 _ ih =>
    rcases List.mem_cons.mp ha with heq | hmem
    · subst heq
      exact ⟨_, List.mem_cons_self _ _, hr1⟩
    · rcases ih hmem with ⟨b, hb, hr⟩
      exact ⟨b, List.mem_cons_of_mem _ hb, hr⟩

theorem fsize_mem_fields {bs : List (String × Frag)} {q : String × Frag} (hq : q ∈ bs) :
    fsize q.2 ≤ fsizeFields bs := by
  induction bs with
  | nil => cases hq
  | cons p rest ih =>
    rcases List.mem_cons.mp hq with heq | hmem
    · subst heq
      show fsize q.2 ≤ fsizeFields (q :: rest)
      rcases q with ⟨n, f⟩
      simp only [fsizeFields]
      omega
    · rcases p with ⟨n, f⟩
      have := ih hmem
      simp only [fsizeFields]
      omega

theorem fm_child {st : WalkSt} {d : SDef} {body : Frag} {b : String}
    (hfm : FM st d body) (hb : b ∈ childIds d) :
    ∃ fb, ChildOk st b fb ∧ fsize fb ≤ fsize body ∧
      (((∃ fs, d = SDef.obj fs) ∨ (∃ e, d = SDef.arr e)) → fsize fb < fsize body) := by
  cases d with
  | prim k => cases hb
  | arr e =>
    rcases hfm with ⟨be, hbody, hco⟩
    have hbe : b = e := by simpa [childIds] using hb
    subst hbe
    subst hbody
    refine ⟨be, hco, ?_, ?_⟩ <;> simp [fsize] <;> omega
  | wrap e =>
    have hbe : b = e := by simpa [childIds] using hb
    subst hbe
    refine ⟨body, hfm, le_refl _, ?_⟩
    rintro (⟨fs, hfs⟩ | ⟨e2, he2⟩)
    · cases hfs
    · cases he2
  | obj fs =>
    rcases hfm with ⟨bs, hbody, hall⟩
    subst hbody
    rcases List.mem_map.mp (show b ∈ fs.map Prod.snd from hb) with ⟨p, hp, hpb⟩
    rcases forall₂_mem_left hall hp with ⟨q, hq, hname, hco⟩
    have hbq : ChildOk st b q.2 := by
      rw [← hpb]
      exact hco
    have hsz : fsize q.2 ≤ fsizeFields bs := fsize_mem_fields hq
    refine ⟨q.2, hbq, ?_, ?_⟩
    · simp only [fsize]
      omega
    · intro _
      simp only [fsize]
      omega

theorem end_state {g : Graph} {root : String} {f : Frag} {stf : WalkSt}
    (hrun : render g (fuelFor g) root WalkSt.init = some (f, stf)) :
    Inv g stf ∧ stf.ids = [] ∧
    (∀ x ∈ stf.reserved, x ∈ keysOf stf.comps) ∧
    root ∈ keysOf stf.done ∧
    (∀ n ∈ refsIn f, n ∈ keysOf stf.comps) ∧
    (∀ p ∈ stf.done, ∀ n ∈ refsIn p.2, n ∈ keysOf stf.comps) := by
  obtain ⟨hInvF, hPostF, hChildF, hrefsF⟩ :=
    (renderSpec_all g (fuelFor g)).1 root WalkSt.init f stf (inv_init g) hrun
  have hids : stf.ids = [] := hPostF.ids_eq
  have hrescomps : ∀ x ∈ stf.reserved, x ∈ keysOf stf.comps := by
    intro x hx
    rcases hInvF.resCover x hx with hc | hid
    · exact hc
    · rw [hids] at hid
      cases hid
  have hcompsdone : ∀ x ∈ keysOf stf.comps, x ∈ keysOf stf.done := by
    intro x hx
    rcases List.mem_map.mp hx with ⟨p, hp, hpk⟩
    have := mem_keys_of_lookup (hInvF.compsSub p hp)
    rwa [hpk] at this
  have hrootdone : root ∈ keysOf stf.done := by
    rcases hChildF with ⟨_, hres⟩ | hlk
    · exact hcompsdone root (hrescomps root hres)
    · exact mem_keys_of_lookup hlk
  refine ⟨hInvF, hids, hrescomps, hrootdone, ?_, ?_⟩
  · intro n hn
    exact hrescomps n (hrefsF n hn)
  · intro p hp n hn
    exact hrescomps n (hInvF.doneRefs p hp n hn)

theorem done_body {g : Graph} {stf : WalkSt} (hInvF : Inv g stf) {a : String}
    (ha : a ∈ keysOf stf.done) :
    ∃ ba d, stf.done.lookup a = some ba ∧ g.lookup a = some d ∧ FM stf d ba := by
  rcases List.mem_map.mp ha with ⟨p, hp, hpk⟩
  have hpe : p = (a, p.2) := by
    rw [← hpk]
  rw [hpe] at hp
  have hlka : stf.done.lookup a = some p.2 := lookup_of_mem_nodup hInvF.doneNodup hp
  obtain ⟨d, hlkg, hfm⟩ := hInvF.goodDone (a, p.2) hp
  exact ⟨p.2, d, hlka, hlkg, hfm⟩

theorem done_closed {g : Graph} {stf : WalkSt} (hInvF : Inv g stf)
    (hres : ∀ x ∈ stf.reserved, x ∈ keysOf stf.comps) :
    ∀ a b, edgeTo g a b → a ∈ keysOf stf.done → b ∈ keysOf stf.done := by
  intro a b hedge ha
  rcases hedge with ⟨d0, hlkg0, hb⟩
  obtain ⟨ba, d, hlka, hlkg, hfm⟩ := done_body hInvF ha
  have hd : d = d0 := by
    rw [hlkg] at hlkg0
    exact Option.some.inj hlkg0
  subst hd
  obtain ⟨fb, hco, -, -⟩ := fm_child hfm hb
  rcases hco with ⟨_, hbres⟩ | hlkb
  · have hcomp := hres b hbres
    rcases List.mem_map.mp hcomp with ⟨q, hq, hqk⟩
    have := mem_keys_of_lookup (hInvF.compsSub q hq)
    rwa [hqk] at this
  · exact mem_keys_of_lookup hlkb

theorem reach_done {g : Graph} {stf : WalkSt} (hInvF : Inv g stf)
    (hres : ∀ x ∈ stf.reserved, x ∈ keysOf stf.comps) :
    ∀ a b, PathTo g a b → a ∈ keysOf stf.done → b ∈ keysOf stf.done := by
  intro a b hp
  induction hp with
  | refl a => exact fun h => h
  | step hedge _ ih => exact fun ha => ih (done_closed hInvF hres _ _ hedge ha)

theorem path_anal {g : Graph} {stf : WalkSt} (hInvF : Inv g stf)
    (hres : ∀ x ∈ stf.reserved, x ∈ keysOf stf.comps) :
    ∀ (a : String) (l : List String) (b : String), IsPath g a l b → a ∈ keysOf stf.done →
      (∃ x ∈ l, x ∈ keysOf stf.comps) ∨
      (∃ ba bb, stf.done.lookup a = some ba ∧ stf.done.lookup b = some bb ∧
        (fsize bb < fsize ba ∨ (fsize bb ≤ fsize ba ∧ (l = [] ∨ WrapPath g a b)))) := by
  intro a l b hp
  induction hp with
  | nil a =>
    intro ha
    obtain ⟨ba, d, hlka, -, -⟩ := done_body hInvF ha
    exact Or.inr ⟨ba, ba, hlka, hlka, Or.inr ⟨le_refl _, Or.inl rfl⟩⟩
  | cons hedge hpath ih =>
    rename_i a0 b' c l'
    intro ha
    rcases hedge with ⟨d0, hlkg0, hb'⟩
    obtain ⟨ba, d, hlka, hlkg, hfm⟩ := done_body hInvF ha
    have hd : d = d0 := by
      rw [hlkg] at hlkg0
      exact Option.some.inj hlkg0
    subst hd
    obtain ⟨fb, hco, hle, hstrict⟩ := fm_child hfm hb'
    rcases hco with ⟨_, hbres⟩ | hlkb
    · exact Or.inl ⟨b', List.mem_cons_self _ _, hres b' hbres⟩
    · have hb'done : b' ∈ keysOf stf.done := mem_keys_of_lookup hlkb
      rcases ih hb'done with hleft | ⟨bb', bc, hlkb'2, hlkc, hdisj⟩
      · rcases hleft with ⟨x, hx, hxc⟩
        exact Or.inl ⟨x, List.mem_cons_of_mem _ hx, hxc⟩
      · have hfbeq : bb' = fb := by
          rw [hlkb] at hlkb'2
          exact (Option.some.inj hlkb'2).symm
        subst hfbeq
        cases d with
        | prim k =>
          exact absurd hb' (by simp [childIds])
        | obj fs =>
          have hstrict2 : fsize bb' < fsize ba := hstrict (Or.inl ⟨fs, rfl⟩)
          have hbc : fsize bc ≤ fsize bb' := by
            rcases hdisj with h1 | ⟨h1, -⟩
            · exact le_of_lt h1
            · exact h1
          exact Or.inr ⟨ba, bc, hlka, hlkc, Or.inl (lt_of_le_of_lt hbc hstrict2)⟩
        | arr e =>
          have hstrict2 : fsize bb' < fsize ba := hstrict (Or.inr ⟨e, rfl⟩)
          have hbc : fsize bc ≤ fsize bb' := by
            rcases hdisj with h1 | ⟨h1, -⟩
            · exact le_of_lt h1
            · exact h1
          exact Or.inr ⟨ba, bc, hlka, hlkc, Or.inl (lt_of_le_of_lt hbc hstrict2)⟩
        | wrap e =>
          have hb'e : b' = e := by simpa [childIds] using hb'
          have hwe : wrapEdge g a0 b' := by
            rw [hb'e]
            exact hlkg
          rcases hdisj with h1 | ⟨h1, hrest⟩
          · exact Or.inr ⟨ba, bc, hlka, hlkc,
              Or.inl (lt_of_lt_of_le h1 hle)⟩
          · refine Or.inr ⟨ba, bc, hlka, hlkc,
              Or.inr ⟨le_trans h1 hle, Or.inr ?_⟩⟩
            rcases hrest with hnil | hwp
            · subst hnil
              cases hpath
              exact WrapPath.single hwe
            · exact WrapPath.cons hwe hwp

theorem count_keys_one {cs : List (String × Frag)} {ck : String}
    (hnd : (keysOf cs).Nodup) (hmem : ck ∈ keysOf cs) :
    cs.countP (fun p => p.1 = ck) = 1 := by
  induction cs with
  | nil => cases hmem
  | cons q rest ih =>
    have hnd2 := List.nodup_cons.mp hnd
    by_cases h : q.1 = ck
    · rw [List.countP_cons]
      have hz : rest.countP (fun p => decide (p.1 = ck)) = 0 := by
        rw [List.countP_eq_zero]
        intro x hx
        simp only [decide_eq_true_eq]
        intro hxk
        apply hnd2.1
        rw [h, ← hxk]
        exact List.mem_map.mpr ⟨x, hx, rfl⟩
      simp [hz, h]
    · rw [List.countP_cons]
      have hmem2 : ck ∈ keysOf rest := by
        rcases List.mem_cons.mp hmem with heq | hm
        · exact absurd heq.symm h
        · exact hm
      simp [h, ih hnd2.2 hmem2]

theorem no_wrap_boundary {g : Graph}
    (h : ∀ p ∈ g, ∀ e, (p : String × SDef).2 ≠ SDef.wrap e) : BoundaryCycles g := by
  intro j hwp
  cases hwp with
  | single h1 => exact h _ (lookup_mem h1) _ rfl
  | cons h1 _ => exact h _ (lookup_mem h1) _ rfl

/-- C1: for every cyclic schema graph whose cycles pass through an
Object/Array boundary (no wrapper-only cycle), rendering from a fresh
registry terminates successfully; every identity is registered as a named
component at most once; some identity on the given cycle is registered
exactly once, with the component body equal to the fully rendered body of
the identity's first visit; and every reference in the output and in the
rendered bodies points to a registered component — so a recursive schema is
never expanded infinitely or repeatedly. -/
theorem c1_cycle_component (g : Graph) (root c0 : String) (l : List String)
    (hC : Closed g) (hB : BoundaryCycles g) (hroot : root ∈ keysG g)
    (hreach : PathTo g root c0) (hcyc : IsPath g c0 l c0) (hne : l ≠ []) :
    ∃ f stf, render g (fuelFor g) root WalkSt.init = some (f, stf) ∧
      (keysOf stf.comps).Nodup ∧
      (∃ ck ∈ c0 :: l, stf.comps.countP (fun p => p.1 = ck) = 1 ∧
        ∃ body, stf.comps.lookup ck = some body ∧ stf.done.lookup ck = some body) ∧
      (∀ n ∈ refsIn f, n ∈ keysOf stf.comps) ∧
      (∀ p ∈ stf.done, ∀ n ∈ refsIn p.2, n ∈ keysOf stf.comps) := by
  have hb1 : graphWidth g * remaining g WalkSt.init + 1 ≤ fuelFor g := by
    rw [remaining_init]
    exact Nat.le_refl _
  have hFlags : FlagsOK g WalkSt.init root := by
    intro j hj
    cases hj
  have hsome := (renderTotal_all g hB hC (fuelFor g)).1 root WalkSt.init
    (inv_init g) hFlags hroot hb1
  rcases Option.isSome_iff_exists.mp hsome with ⟨pr, hrun⟩
  rcases pr with ⟨f, stf⟩
  obtain ⟨hInvF, hids, hres, hrootdone, hrefs1, hrefs2⟩ := end_state hrun
  have hc0done : c0 ∈ keysOf stf.done := reach_done hInvF hres root c0 hreach hrootdone
  rcases path_anal hInvF hres c0 l c0 hcyc hc0done with
    ⟨x, hxl, hxc⟩ | ⟨ba, bb, hlka, hlkb, hdisj⟩
  · refine ⟨f, stf, hrun, hInvF.compsNodup,
      ⟨x, List.mem_cons_of_mem _ hxl, count_keys_one hInvF.compsNodup hxc, ?_⟩,
      hrefs1, hrefs2⟩
    rcases List.mem_map.mp hxc with ⟨q, hq, hqk⟩
    have hqe : q = (x, q.2) := by
      rw [← hqk]
    rw [hqe] at hq
    have hlkc : stf.comps.lookup x = some q.2 := lookup_of_mem_nodup hInvF.compsNodup hq
    exact ⟨q.2, hlkc, hInvF.compsSub (x, q.2) hq⟩
  · exfalso
    have hbab : ba = bb := by
      rw [hlka] at hlkb
      exact Option.some.inj hlkb
    subst hbab
    rcases hdisj with hlt | ⟨-, hrest⟩
    · exact lt_irrefl _ hlt
    · rcases hrest with hnil | hwp
      · exact hne hnil
      · exact hB c0 hwp

/-- C1 witness: the recursive features schema of the generated document,
rendered from a fresh registry, terminates and registers exactly one
component for the cycle, with every other occurrence a reference. -/
theorem c1_cycle_component_witness :
    Closed featuresGraph ∧
    (∃ f stf, render featuresGraph (fuelFor featuresGraph) featuresComponentName
        WalkSt.init = some (f, stf) ∧
      (keysOf stf.comps).Nodup ∧
      (∃ ck ∈ featuresComponentName :: ["featObj", featuresComponentName],
        stf.comps.countP (fun p => p.1 = ck) = 1 ∧
        ∃ body, stf.comps.lookup ck = some body ∧ stf.done.lookup ck = some body) ∧
      (∀ n ∈ refsIn f, n ∈ keysOf stf.comps) ∧
      (∀ p ∈ stf.done, ∀ n ∈ refsIn p.2, n ∈ keysOf stf.comps)) :=
  ⟨by unfold Closed; decide,
   c1_cycle_component featuresGraph featuresComponentName featuresComponentName
     ["featObj", featuresComponentName]
     (by unfold Closed; decide)
     (no_wrap_boundary (by
       intro p hp e
       simp only [featuresGraph, List.mem_cons, List.not_mem_nil, or_false] at hp
       rcases hp with rfl | rfl | rfl <;> simp))
     (by decide)
     (PathTo.refl _)
     (IsPath.cons ⟨SDef.arr "featObj", rfl, by decide⟩
       (IsPath.cons ⟨SDef.obj [("title", "featTitle"),
           ("features", featuresComponentName)], rfl, by decide⟩
         (IsPath.nil _)))
     (by decide)⟩

/-- C9 witness: the options route keeps its aliases but contributes neither
a path nor any keyed entry. -/
theorem c9_options_exclusion_witness :
    buildClient optionsRouting = Except.ok (mkClient (routingEntries optionsRouting "")) ∧
    Decl.alias (cleanId "/opt" Method.options "input") (zodToTs optionsEndpoint.input) ∈
      (mkClient (routingEntries optionsRouting "")).agg ∧
    (mkClient (routingEntries optionsRouting "")).paths = ["/v1"] ∧
    (Method.options, "/opt") ∉
      (mkClient (routingEntries optionsRouting "")).registry.map Prod.fst :=
  ⟨rfl,
   (c9_options_exclusion optionsRouting _ ⟨"/opt", Method.options, optionsEndpoint⟩
     rfl (List.Mem.head _) rfl).1,
   by decide,
   (c9_options_exclusion optionsRouting _ ⟨"/opt", Method.options, optionsEndpoint⟩
     rfl (List.Mem.head _) rfl).2.2.2.1⟩

end EZA
